import Mathlib

/-!
# Flight Checklist Companion — verification of the checklist core

A shallow embedding of the checklist-tree editor (`checklist_editor.py`,
class `_TreeItemRow`) and of the runtime checklist view
(`main_window.py`, class `ChecklistWidget`), together with proofs about
the level/optionality invariants, the completion gate, and the
persistence effects of the runtime operations.

Conventions of the embedding:

* Each editor row (one `QListWidgetItem` plus its `_TreeItemRow` widget)
  is a `Row`.  The item data dictionary (`Qt.UserRole`) contributes the
  fields `text`, `level`, `optData`; the live checkbox `opt` contributes
  `optChecked` (its checked state) and `optEnabled` (its enabled state).
  The item data field `optional` and the checkbox state are distinct
  pieces of state in the source and are kept distinct here.
* `QCheckBox.setChecked` fires the connected `stateChanged` slot
  (`_cascade_optional`) exactly when the stored state actually changes;
  `setCheckedSig` models this.
* The runtime `QTreeWidget` of `ChecklistWidget` is the mutual pair
  `QNode`/`QForest`; a `QNode` carries the item text, the `Qt.UserRole`
  optional flag, the check state, and the `ItemIsUserCheckable` flag.
-/

namespace FlightChecklist

/-- One editor row: the `Qt.UserRole` data dict (`text`, `level`,
`optData` = the dict's `optional` entry) plus the live state of the
`可选` checkbox (`optChecked`, `optEnabled`). -/
structure Row where
  text : String
  level : Nat
  optData : Bool
  optChecked : Bool
  optEnabled : Bool
deriving Repr, DecidableEq

/-- `(item.data(Qt.UserRole) or {}).get("level", 0)` for the row at `i`. -/
def lvl (ls : List Row) (i : Nat) : Nat :=
  ((ls[i]?).map (fun r => r.level)).getD 0

/-- `row.opt.isChecked()` for the row at `i` (false when out of range). -/
def optC (ls : List Row) (i : Nat) : Bool :=
  ((ls[i]?).map (fun r => r.optChecked)).getD false

/-- `(item.data(Qt.UserRole) or {}).get("optional", False)` for the row at `i`. -/
def optD (ls : List Row) (i : Nat) : Bool :=
  ((ls[i]?).map (fun r => r.optData)).getD false

/-- `row.opt.isEnabled()` for the row at `i` (true when out of range). -/
def optE (ls : List Row) (i : Nat) : Bool :=
  ((ls[i]?).map (fun r => r.optEnabled)).getD true

/-- Replace the row at index `i` by `f` of it (other rows unchanged). -/
def modifyAt (f : Row → Row) : Nat → List Row → List Row
  | _, [] => []
  | 0, r :: rest => f r :: rest
  | i + 1, r :: rest => r :: modifyAt f i rest

/-- `item.setData` of the `level` entry. -/
def setLevel (ls : List Row) (i : Nat) (l : Nat) : List Row :=
  modifyAt (fun r => { r with level := l }) i ls

/-- Store a new checkbox state without firing signals (raw state write). -/
def setOptChecked (ls : List Row) (i : Nat) (v : Bool) : List Row :=
  modifyAt (fun r => { r with optChecked := v }) i ls

/-- `row.opt.setEnabled(v)` (fires no signal). -/
def setOptEnabled (ls : List Row) (i : Nat) (v : Bool) : List Row :=
  modifyAt (fun r => { r with optEnabled := v }) i ls

/-- `item.setData` of the `optional` entry. -/
def setOptData (ls : List Row) (i : Nat) (v : Bool) : List Row :=
  modifyAt (fun r => { r with optData := v }) i ls

/-- The loop body of `_TreeItemRow._cascade_optional`: walk the rows after
the node while their level is strictly greater than `lvl0`, forcing each
checkbox to `state` and its enabled flag to `not state`.  (The nested
`stateChanged` signals fired inside the loop re-write the same run with
the same values, so the net effect is this single pass.) -/
def cascadeAux (state : Bool) (lvl0 : Nat) : List Row → List Row
  | [] => []
  | r :: rest =>
    if r.level ≤ lvl0 then r :: rest
    else { r with optChecked := state, optEnabled := !state } :: cascadeAux state lvl0 rest

/-- `_TreeItemRow._cascade_optional(state)` for the row at `idx`. -/
def cascadeOptional (ls : List Row) (idx : Nat) (state : Bool) : List Row :=
  ls.take (idx + 1) ++ cascadeAux state (lvl ls idx) (ls.drop (idx + 1))

/-- `row.opt.setChecked(v)`: writes the state and, when it actually
changed, fires `stateChanged`, i.e. `_cascade_optional`. -/
def setCheckedSig (ls : List Row) (idx : Nat) (v : Bool) : List Row :=
  if optC ls idx = v then ls
  else cascadeOptional (setOptChecked ls idx v) idx v

/-- The backward parent search of `_sync_optional_with_parent`: the first
index `j` below the second argument with `lvl ls j < l`. -/
def findParent (ls : List Row) (l : Nat) : Nat → Option Nat
  | 0 => none
  | j + 1 => if lvl ls j < l then some j else findParent ls l j

/-- `_TreeItemRow._sync_optional_with_parent(idx)`. -/
def syncOptionalWithParent (ls : List Row) (idx : Nat) : List Row :=
  match findParent ls (lvl ls idx) idx with
  | some p =>
    if optC ls p then setOptEnabled (setCheckedSig ls idx true) idx false
    else setOptEnabled ls idx true
  | none => setOptEnabled ls idx true

/-- `_TreeItemRow._add_after` for the row at `idx`: insert a fresh
empty-text row right after it.  The new row's level is the next row's
level when that is strictly deeper, otherwise the current row's level;
its `optional` (data and checkbox alike, per the `_TreeItemRow`
constructor) is copied from the *item data* of the row at `idx`. -/
def addAfter (ls : List Row) (idx : Nat) : List Row :=
  let curLevel := lvl ls idx
  let curOptional := optD ls idx
  let newLevel := if idx + 1 < ls.length && curLevel < lvl ls (idx + 1)
    then lvl ls (idx + 1) else curLevel
  ls.take (idx + 1) ++ ⟨"", newLevel, curOptional, curOptional, true⟩ :: ls.drop (idx + 1)

/-- One iteration of the descendant loop in `_TreeItemRow._remove`:
for descendant index `i` whose level in the original list was
`origLevel`, store `max(0, origLevel - 1)`, re-enable the checkbox and
re-run `_sync_optional_with_parent`. -/
def remStep (ls : List Row) (i : Nat) (origLevel : Nat) : List Row :=
  syncOptionalWithParent (setOptEnabled (setLevel ls i (origLevel - 1)) i true) i

/-- The descendant loop of `_TreeItemRow._remove`, over the collected
`(index, level)` pairs. -/
def remLoop : List (Nat × Nat) → List Row → List Row
  | [], ls => ls
  | (i, l) :: rest, ls => remLoop rest (remStep ls i l)

/-- Enumerate the rows of a list with indices starting at `s`, keeping
only the level of each row. -/
def enumLevelsFrom (s : Nat) : List Row → List (Nat × Nat)
  | [] => []
  | r :: rest => (s, r.level) :: enumLevelsFrom (s + 1) rest

/-- The `(index, original level)` pairs collected by `_remove`'s first
loop: the contiguous run after `idx` of rows strictly deeper than the
row at `idx`. -/
def descPairs (ls : List Row) (idx : Nat) : List (Nat × Nat) :=
  enumLevelsFrom (idx + 1) ((ls.drop (idx + 1)).takeWhile (fun r => lvl ls idx < r.level))

/-- The descendant run of the row at `idx`: the contiguous rows after it
that are strictly deeper (the rows `_remove`'s first loop collects). -/
def runOf (ls : List Row) (idx : Nat) : List Row :=
  (ls.drop (idx + 1)).takeWhile (fun r => decide (lvl ls idx < r.level))

/-- `_TreeItemRow._remove` for the row at `idx`: a no-op when it is the
only row; otherwise decrement (clamped at 0) the level of every
descendant, re-enable and re-sync each of them, then delete the row. -/
def removeItem (ls : List Row) (idx : Nat) : List Row :=
  if ls.length == 1 then ls
  else (remLoop (descPairs ls idx) ls).eraseIdx idx

/-- The backward parent search in `_indent`'s pre-validation block,
comparing against the *prospective* level (an `Int`). -/
def findParentI (ls : List Row) (l : Int) : Nat → Option Nat
  | 0 => none
  | j + 1 => if (lvl ls j : Int) < l then some j else findParentI ls l j

/-- The loop at the end of `_indent`: shift the contiguous run of rows
deeper than `lvl0` by `d`, clamping at level 0. -/
def shiftRunAux (lvl0 : Nat) (d : Int) : List Row → List Row
  | [] => []
  | r :: rest =>
    if r.level ≤ lvl0 then r :: rest
    else { r with level := ((r.level : Int) + d).toNat } :: shiftRunAux lvl0 d rest

/-- Apply `shiftRunAux` to the rows after `idx`. -/
def shiftRun (ls : List Row) (idx : Nat) (lvl0 : Nat) (d : Int) : List Row :=
  ls.take (idx + 1) ++ shiftRunAux lvl0 d (ls.drop (idx + 1))

/-- The three validation rules of `_indent` (`new_level ≥ 0`; the first
row stays at level 0; no jump past `previous level + 1`). -/
def indentValid (ls : List Row) (idx : Nat) (delta : Int) : Bool :=
  let newLevel : Int := (lvl ls idx : Int) + delta
  let prevLevel : Nat := if 0 < idx then lvl ls (idx - 1) else 0
  decide (0 ≤ newLevel) && (decide (idx ≠ 0) || decide (newLevel = 0)) &&
    decide (newLevel ≤ (prevLevel : Int) + 1)

/-- The block of `_indent` that runs *before* any validation (lines
152–167 of `checklist_editor.py`): if the prospective level is 0 the
checkbox is cleared and the item-data optional entry is set to `False`;
otherwise the prospective parent is looked up and, when it is not
checked, the node's checkbox is cleared (firing its cascade). -/
def indentPresync (ls : List Row) (idx : Nat) (newLevel : Int) : List Row :=
  if newLevel = 0 then
    setOptData (setCheckedSig ls idx false) idx false
  else
    match findParentI ls newLevel idx with
    | some p => if optC ls p then ls else setCheckedSig ls idx false
    | none => ls

/-- `_TreeItemRow._indent(delta)` for the row at `idx`.  Faithfully
includes the pre-validation checkbox sync (which runs *before* any of
the three validation checks and can itself mutate checkbox state), the
three abort paths, the level update, the descendant shift, and the final
`_sync_optional_with_parent`. -/
def indentItem (ls : List Row) (idx : Nat) (delta : Int) : List Row :=
  let curLevel : Nat := lvl ls idx
  let newLevel : Int := (curLevel : Int) + delta
  let ls1 := indentPresync ls idx newLevel
  if newLevel < 0 then ls1
  else if idx = 0 ∧ newLevel ≠ 0 then ls1
  else
    let prevLevel : Nat := if 0 < idx then lvl ls1 (idx - 1) else 0
    if (prevLevel : Int) + 1 < newLevel then ls1
    else
      syncOptionalWithParent (shiftRun (setLevel ls1 idx newLevel.toNat) idx curLevel (newLevel - curLevel)) idx

/-- One user-level structural edit of the outline editor, as reachable
from the row buttons: `＋` (insert after), `－` (remove), `↖` (indent
by `-1`), `↘` (indent by `+1`).  Each button lives on an existing row,
so the index is always in range. -/
inductive EditOp where
  | insertAfter (idx : Nat)
  | removeAt (idx : Nat)
  | indentLeft (idx : Nat)
  | indentRight (idx : Nat)
deriving Repr, DecidableEq

/-- Apply one edit (indices addressing no existing row do nothing, since
the buttons only exist on existing rows). -/
def applyOp (ls : List Row) : EditOp → List Row
  | .insertAfter i => if i < ls.length then addAfter ls i else ls
  | .removeAt i => if i < ls.length then removeItem ls i else ls
  | .indentLeft i => if i < ls.length then indentItem ls i (-1) else ls
  | .indentRight i => if i < ls.length then indentItem ls i 1 else ls

/-- Apply a sequence of edits, oldest first. -/
def applyOps (ls : List Row) : List EditOp → List Row
  | [] => ls
  | op :: ops => applyOps (applyOp ls op) ops

/-- The level sequence of a row list. -/
def levels (ls : List Row) : List Nat := ls.map (fun r => r.level)

/-- The text sequence of a row list. -/
def texts (ls : List Row) : List String := ls.map (fun r => r.text)

/-- The item-data optional sequence of a row list. -/
def optDatas (ls : List Row) : List Bool := ls.map (fun r => r.optData)

/-- `levChain p L`: every element of `L` exceeds its predecessor by at
most one, taking `p` as the predecessor of the first element. -/
def levChain (p : Nat) : List Nat → Bool
  | [] => true
  | l :: rest => (l ≤ p + 1) && levChain l rest

/-- The structural level invariant of a stage: the first node is at
level 0 and no node's level exceeds its predecessor's level plus 1. -/
def levelInv : List Nat → Bool
  | [] => true
  | l :: rest => (l == 0) && levChain l rest

/-! ## The runtime checklist view (`main_window.py`, `ChecklistWidget`)

The `QTreeWidget` contents: each `QTreeWidgetItem` carries its text, the
`Qt.UserRole` data (the node's `optional` flag), its check state and its
`ItemIsUserCheckable` flag, plus its ordered children. -/

mutual
inductive QNode where
  | mk (text : String) (optional checked checkable : Bool) (children : QForest)
deriving Repr
inductive QForest where
  | nil
  | cons (hd : QNode) (tl : QForest)
deriving Repr
end

def QNode.text : QNode → String
  | .mk t _ _ _ _ => t

def QNode.optional : QNode → Bool
  | .mk _ o _ _ _ => o

def QNode.checked : QNode → Bool
  | .mk _ _ c _ _ => c

def QNode.checkable : QNode → Bool
  | .mk _ _ _ cb _ => cb

def QNode.children : QNode → QForest
  | .mk _ _ _ _ k => k

/-- The `lock_children` helper inside `ChecklistWidget._on_item_changed`,
acting on the children of a parent whose `optional` data is `po` and
whose current check state is `pc`: a child under an unchecked optional
parent is force-unchecked and made non-checkable, otherwise it is made
checkable; then the walk recurses into the child with the child's *new*
state. -/
def lockF (po pc : Bool) : QForest → QForest
  | .nil => .nil
  | .cons (.mk t o c _cb kids) rest =>
    if po && !pc then
      .cons (.mk t o false false (lockF o false kids)) (lockF po pc rest)
    else
      .cons (.mk t o c true (lockF o c kids)) (lockF po pc rest)

/-- `lock_children(itm)` itself: the item is untouched, its subtree is
locked according to the item's own state. -/
def lockKidsN : QNode → QNode
  | .mk t o c cb kids => .mk t o c cb (lockF o c kids)

/-- The recursive `check_node` of `ChecklistWidget._update_next_btn`,
over a sibling list whose parent state is `par` (`none` for top-level
items, else `(parent optional, parent check state)`).  Children are
processed first; an *optional* node whose parent is an unchecked
optional node is force-unchecked; a non-optional node must be checked
for the result to stay `true`; optional nodes never affect the result. -/
def checkF (par : Option (Bool × Bool)) : QForest → QForest × Bool
  | .nil => (.nil, true)
  | .cons (.mk t o c cb kids) rest =>
    let rk := checkF (some (o, c)) kids
    let self : QNode :=
      if o then
        match par with
        | some (po, pc) => if po && !pc && c then .mk t o false cb rk.1 else .mk t o c cb rk.1
        | none => .mk t o c cb rk.1
      else .mk t o c cb rk.1
    let ok : Bool := if o then rk.2 else rk.2 && c
    let rr := checkF par rest
    (.cons self rr.1, ok && rr.2)

/-- `ChecklistWidget._update_next_btn`: run `check_node` over every
top-level item; the resulting Boolean is what `next_btn.setEnabled`
receives. -/
def updateNextBtn (f : QForest) : QForest × Bool := checkF none f

/-- The forest element at index `i` of a sibling list. -/
def getN : QForest → Nat → Option QNode
  | .nil, _ => none
  | .cons k _, 0 => some k
  | .cons _ r, i + 1 => getN r i

/-- Replace the node at index `i` of a sibling list by `g` of it. -/
def modifyN (g : QNode → QNode) : QForest → Nat → QForest
  | .nil, _ => .nil
  | .cons k r, 0 => .cons (g k) r
  | .cons k r, i + 1 => .cons k (modifyN g r i)

/-- The node a (nonempty) child-index path addresses in a forest. -/
def getPath : List Nat → QForest → Option QNode
  | [], _ => none
  | [i], f => getN f i
  | i :: p, f => (getN f i).bind fun n => getPath p n.children

/-- Apply `g` to the node a (nonempty) child-index path addresses. -/
def modifyPath (g : QNode → QNode) : List Nat → QForest → QForest
  | [], f => f
  | [i], f => modifyN g f i
  | i :: p, f =>
    modifyN (fun n => .mk n.text n.optional n.checked n.checkable (modifyPath g p n.children)) f i

/-- Write check state `v` into the item at path `p` (the user click that
precedes the `itemChanged` signal). -/
def setCheckedAt (f : QForest) (p : List Nat) (v : Bool) : QForest :=
  modifyPath (fun n => .mk n.text n.optional v n.checkable n.children) p f

/-- `ChecklistWidget._on_item_changed` for the item at path `p` (color
updates aside): `lock_children(itm)` on the changed item's subtree, then
`_update_next_btn`, whose `check_node` pass applies its own corrections
to the whole tree. -/
def onItemChanged (f : QForest) (p : List Nat) : QForest :=
  (updateNextBtn (modifyPath lockKidsN p f)).1

/-- A complete user check/uncheck event on the item at path `p`: the new
check state is stored, then the `itemChanged` handler runs. -/
def processCheckEvent (f : QForest) (p : List Nat) (v : Bool) : QForest :=
  onItemChanged (setCheckedAt f p v) p

/-- Spec-side completion predicate (§4.2/§8 of the spec, for the
refinement statement): every non-optional node of the tree is checked —
equivalently every node is optional or checked. -/
def requiredF : QForest → Bool
  | .nil => true
  | .cons (.mk _ o c _ kids) rest => (o || c) && requiredF kids && requiredF rest

/-- Does any node of the forest hold a checked state? -/
def anyCheckedF : QForest → Bool
  | .nil => false
  | .cons (.mk _ _ c _ kids) rest => c || anyCheckedF kids || anyCheckedF rest

/-- Is any node of the forest non-checkable (`ItemIsUserCheckable` off)? -/
def anyLockedF : QForest → Bool
  | .nil => false
  | .cons (.mk _ _ _ cb kids) rest => !cb || anyLockedF kids || anyLockedF rest

/-- Violation witness for the runtime optional-lock rule: some optional
node is unchecked while a node somewhere below it is checked. -/
def lockViolF : QForest → Bool
  | .nil => false
  | .cons (.mk _ o c _ kids) rest => (o && !c && anyCheckedF kids) || lockViolF kids || lockViolF rest

/-- Are all roots of the forest optional? -/
def allOptF : QForest → Bool
  | .nil => true
  | .cons (.mk _ o _ _ _) rest => o && allOptF rest

/-- The editor-maintained optional-cascade shape of a stored tree: every
child of an optional node is optional (hence, hereditarily, so is every
descendant). -/
def cascadeInvF : QForest → Bool
  | .nil => true
  | .cons (.mk _ o _ _ kids) rest => (!o || allOptF kids) && cascadeInvF kids && cascadeInvF rest

/-- `ChecklistWidget._next_stage`, combined with the gate that the
`下一阶段` button is only clickable when `_update_next_btn` last enabled
it: on a click, when not on the last stage, the stage index advances by
one; on the last stage only a message box is shown.  `i` is the current
stage index, `count` the number of stages. -/
def nextStageClick (f : QForest) (i count : Nat) : Nat :=
  if (updateNextBtn f).2 then (if i + 1 < count then i + 1 else i) else i

/-! ## Persistence and checked-state memory (`ChecklistManager` clients)

`ChecklistManager.read`/`write` move whole JSON documents; the runtime
operations of `ChecklistWidget` are modelled by the effect they have on
the process-wide checked-state memory `_checked_memory` and by the list
of `mgr.write` calls they issue. -/

/-- A persisted checklist item: either a legacy bare string or a dict
with `text`/`level`/`optional` and, possibly, a `checked` key (the
normal editor output has no `checked` key, hence the `Option`). -/
structure PObj where
  text : String
  level : Nat
  optional : Bool
  checked : Option Bool
deriving Repr, DecidableEq

inductive PItem where
  | str (s : String)
  | obj (o : PObj)
deriving Repr, DecidableEq

structure PStage where
  name : String
  items : List PItem
deriving Repr, DecidableEq

/-- One aircraft's persisted checklist document (`{"stages": [...]}`). -/
abbrev PDoc := List PStage

/-- The per-item mutation `_reset_checks` applies before writing the
document back: dict items get `item["checked"] = False`, bare strings
are untouched. -/
def resetItem : PItem → PItem
  | .str s => .str s
  | .obj o => .obj { o with checked := some false }

/-- The document `_reset_checks` hands to `mgr.write`. -/
def resetDoc (d : PDoc) : PDoc :=
  d.map fun st => { st with items := st.items.map resetItem }

/-- The process-wide checked-state memory
`_checked_memory : aircraft → stage → set of checked texts`. -/
def Mem : Type := String → String → List String

/-- The empty memory the widget starts with (`self._checked_memory = {}`). -/
def emptyMem : Mem := fun _ _ => []

/-- `self._checked_memory[ac].clear()` (guarded by `if ac in ...`). -/
def clearAircraft (m : Mem) (ac : String) : Mem :=
  fun a s => if a = ac then [] else m a s

/-- The `collect` helper of `_save_current_stage_state` /
`_update_memory_check_state`: the texts of all checked items. -/
def collectChecked : QForest → List String
  | .nil => []
  | .cons (.mk t _ c _ kids) rest =>
    (if c then [t] else []) ++ collectChecked kids ++ collectChecked rest

/-- The memory/disk effect of one runtime operation: the new memory and
the `mgr.write(aircraft, document)` calls issued, in order. -/
structure EffResult where
  mem : Mem
  writes : List (String × PDoc)

/-- `ChecklistWidget._save_current_stage_state` /
`_update_memory_check_state`: snapshot the current tree's checked texts
into the `(ac, stage)` slot; no disk write. -/
def saveCurrentStageState (m : Mem) (ac stage : String) (f : QForest) : EffResult :=
  if ac = "" ∨ stage = "" then ⟨m, []⟩
  else ⟨fun a s => if a = ac ∧ s = stage then collectChecked f else m a s, []⟩

/-- Memory/disk effect of `ChecklistWidget._next_stage`: none (it only
moves the stage combo index; the stage-change handler then snapshots via
`_save_current_stage_state`, which also writes nothing). -/
def nextStageEffect (m : Mem) : EffResult := ⟨m, []⟩

/-- Memory/disk effect of `ChecklistWidget._on_item_changed` for the
item at path `p` set to `v`: the tree is relocked and reswept, then
`_update_memory_check_state` snapshots it; no disk write. -/
def onItemChangedEffect (m : Mem) (ac stage : String) (f : QForest) (p : List Nat) (v : Bool) :
    EffResult :=
  saveCurrentStageState m ac stage (processCheckEvent f p v)

/-- Memory/disk effect of `ChecklistWidget._complete_checks`: none (it
checks every tree item with signals blocked and re-runs
`_update_next_btn`; neither memory nor `mgr.write` is touched). -/
def completeChecksEffect (m : Mem) : EffResult := ⟨m, []⟩

/-- `ChecklistWidget._reset_checks` for aircraft `ac` whose stored
document is `doc`: sets `checked = False` on every dict item of the
document, *writes the document back via `mgr.write`*, and clears the
aircraft's slot of the checked-state memory. -/
def resetChecks (m : Mem) (ac : String) (doc : PDoc) : EffResult :=
  ⟨clearAircraft m ac, [(ac, resetDoc doc)]⟩

/-! ## ATC template editing (`atc_editor.py` / `ATCWidget`) -/

/-- One stored ATC template (`{"name", "stage", "cn", "en"}`). -/
structure ATCTemplate where
  name : String
  stage : String
  cn : String
  en : String
deriving Repr, DecidableEq

/-- A Python positional argument, as passed to `ATCEditor(...)`. -/
inductive PyArg where
  | parentW
  | managerW
  | strA (s : String)
  | tpl (t : ATCTemplate)
deriving Repr, DecidableEq

/-- The parameters `ATCEditor.__init__` accepts besides `self`:
`parent, mgr, aircraft, stage`. -/
def atcEditorParams : List String := ["parent", "mgr", "aircraft", "stage"]

/-- An open (modal) editor session, produced only when construction
succeeds. -/
structure ATCEditorSession where
  aircraft : String
  stage : String
deriving Repr, DecidableEq

/-- Python positional-call semantics for `ATCEditor(...)`: a `TypeError`
is raised unless the argument count matches the parameter count. -/
def constructATCEditor (args : List PyArg) (ac stage : String) :
    Except String ATCEditorSession :=
  if args.length = atcEditorParams.length then .ok ⟨ac, stage⟩
  else .error "TypeError"

/-- `ATCWidget._edit_tpl`: with templates present and a valid combo
index, it evaluates `ATCEditor(self, self.mgr, self.ac, self.stage, tpl)`
— five positional arguments for a four-parameter constructor.  The
result pairs the outcome (an editor session or the raised error) with
the stored template list after the call, which no path modifies. -/
def editTpl (tpls : List ATCTemplate) (idx : Nat) (ac stage : String) :
    (Except String (Option ATCEditorSession)) × List ATCTemplate :=
  if tpls = [] then (.ok none, tpls)
  else
    match tpls[idx]? with
    | none => (.ok none, tpls)
    | some t =>
      match constructATCEditor
          [.parentW, .managerW, .strA ac, .strA stage, .tpl t] ac stage with
      | .ok s => (.ok (some s), tpls)
      | .error e => (.error e, tpls)

/-! ## Concrete states used by counterexamples and witnesses -/

/-- Editor rows `A` (level 0) and `B` (level 1, optional, checkbox
checked): a well-formed two-row stage. -/
def exC2 : List Row := [⟨"A", 0, false, false, true⟩, ⟨"B", 1, true, true, true⟩]

/-- Editor rows: a single root `A` whose checkbox the user has just
ticked (the item data still stores `optional = false`, since
`_cascade_optional` never writes item data). -/
def exC6 : List Row := [⟨"A", 0, false, true, true⟩]

/-- Editor rows `A` (level 0, optional, checked) over `B` (level 1,
forced optional and locked by the cascade). -/
def exC5 : List Row := [⟨"A", 0, true, true, true⟩, ⟨"B", 1, true, true, false⟩]

/-- Runtime forest: optional unchecked `O` over optional checked `B`
over optional checked `D`, next to a non-optional root `X`. -/
def exC4 : QForest :=
  .cons (.mk "O" true false true
      (.cons (.mk "B" true true true (.cons (.mk "D" true true true .nil) .nil)) .nil))
    (.cons (.mk "X" false false true .nil) .nil)

/-- Runtime forest: non-optional checked `A` with optional unchecked
child `B`. -/
def exC3 : QForest :=
  .cons (.mk "A" false true true (.cons (.mk "B" true false true .nil) .nil)) .nil

/-- Runtime forest with one unchecked required item. -/
def exIncomplete : QForest := .cons (.mk "A" false false true .nil) .nil

/-- A persisted document with one stage holding a dict item (no
`checked` key) and a legacy string item. -/
def exDoc : PDoc := [⟨"Startup", [.obj ⟨"A", 0, false, none⟩, .str "B"]⟩]

/-- A stored ATC template. -/
def exTpl : ATCTemplate := ⟨"T1", "Taxi", "cn text", "en text"⟩

/-- A sample editing session: insert below the root, try an illegal
indent, remove the root, try an illegal outdent. -/
def exOps : List EditOp := [.insertAfter 0, .indentRight 1, .removeAt 0, .indentLeft 1]

/-- Everything of a persisted item except a `checked` entry. -/
def itemCore : PItem → String ⊕ (String × Nat × Bool)
  | .str s => .inl s
  | .obj o => .inr (o.text, o.level, o.optional)

/-! ## Lemmas about the runtime completion sweep -/

/-- `(o || c) && requiredF kids` for a node: its own contribution to
`requiredF`. -/
def nodeReq : QNode → Bool
  | .mk _ o c _ kids => (o || c) && requiredF kids

theorem requiredF_cons (n : QNode) (rest : QForest) :
    requiredF (.cons n rest) = (nodeReq n && requiredF rest) := by
  cases n with
  | mk t o c cb kids => simp [requiredF, nodeReq, Bool.and_assoc]

/-- The Boolean computed by `check_node` over a sibling list is exactly
the spec's completion predicate: every non-optional node is checked.
The parent context only influences the auto-uncheck side effects, never
the Boolean. -/
theorem checkF_snd : ∀ (par : Option (Bool × Bool)) (f : QForest),
    (checkF par f).2 = requiredF f
  | _, .nil => by simp [checkF, requiredF]
  | par, .cons (.mk t o c cb kids) rest => by
    have ihk := checkF_snd (some (o, c)) kids
    have ihr := checkF_snd par rest
    cases o with
    | false => simp [checkF, requiredF, ihk, ihr]; cases c <;> simp [Bool.and_comm, Bool.and_assoc, Bool.and_left_comm]
    | true => simp [checkF, requiredF, ihk, ihr]

theorem requiredF_modifyN_false (g : QNode → QNode) :
    ∀ (f : QForest) (i : Nat) (n : QNode), getN f i = some n →
      nodeReq (g n) = false → requiredF (modifyN g f i) = false
  | .nil, i, n, h, _ => by simp [getN] at h
  | .cons k r, 0, n, h, hg => by
    simp [getN] at h
    subst h
    simp [modifyN, requiredF_cons, hg]
  | .cons k r, i + 1, n, h, hg => by
    simp [getN] at h
    have := requiredF_modifyN_false g r i n h hg
    simp [modifyN, requiredF_cons, this]

theorem requiredF_modifyN_congr (g : QNode → QNode) :
    ∀ (f : QForest) (i : Nat) (n : QNode), getN f i = some n →
      nodeReq (g n) = nodeReq n → requiredF (modifyN g f i) = requiredF f
  | .nil, i, n, h, _ => by simp [getN] at h
  | .cons k r, 0, n, h, hg => by
    simp [getN] at h
    subst h
    simp [modifyN, requiredF_cons, hg]
  | .cons k r, i + 1, n, h, hg => by
    simp [getN] at h
    have := requiredF_modifyN_congr g r i n h hg
    simp [modifyN, requiredF_cons, this]

theorem setCheckedAt_cons_cons (f : QForest) (i j : Nat) (p : List Nat) (v : Bool) :
    setCheckedAt f (i :: j :: p) v =
      modifyN (fun m => QNode.mk m.text m.optional m.checked m.checkable
        (setCheckedAt m.children (j :: p) v)) f i := rfl

/-- Unchecking a non-optional node (at any valid path) falsifies the
completion predicate. -/
theorem requiredF_uncheck_required : ∀ (p : List Nat) (f : QForest) (n : QNode),
    getPath p f = some n → n.optional = false →
    requiredF (setCheckedAt f p false) = false
  | [], f, n, h, _ => by simp [getPath] at h
  | [i], f, n, h, ho => by
    simp only [getPath] at h
    refine requiredF_modifyN_false _ f i n h ?_
    cases n with
    | mk t o c cb kids => simp [QNode.optional] at ho; simp [nodeReq, ho, QNode.optional, QNode.children]
  | i :: j :: p, f, n, h, ho => by
    simp only [getPath, Option.bind_eq_some] at h
    obtain ⟨m, hm, hp⟩ := h
    cases m with
    | mk t o c cb kids =>
      have hrec := requiredF_uncheck_required (j :: p) kids n hp ho
      rw [setCheckedAt_cons_cons]
      refine requiredF_modifyN_false _ f i _ hm ?_
      simp [nodeReq, QNode.text, QNode.optional, QNode.checked, QNode.checkable,
        QNode.children, hrec]

/-- Toggling the check state of an *optional* node (at any valid path)
leaves the completion predicate unchanged. -/
theorem requiredF_toggle_optional : ∀ (p : List Nat) (f : QForest) (n : QNode) (v : Bool),
    getPath p f = some n → n.optional = true →
    requiredF (setCheckedAt f p v) = requiredF f
  | [], f, n, v, h, _ => by simp [getPath] at h
  | [i], f, n, v, h, ho => by
    simp only [getPath] at h
    refine requiredF_modifyN_congr _ f i n h ?_
    cases n with
    | mk t o c cb kids => simp [QNode.optional] at ho; simp [nodeReq, ho, QNode.optional, QNode.children]
  | i :: j :: p, f, n, v, h, ho => by
    simp only [getPath, Option.bind_eq_some] at h
    obtain ⟨m, hm, hp⟩ := h
    cases m with
    | mk t o c cb kids =>
      have hrec := requiredF_toggle_optional (j :: p) kids n v hp ho
      rw [setCheckedAt_cons_cons]
      refine requiredF_modifyN_congr _ f i _ hm ?_
      simp [nodeReq, QNode.text, QNode.optional, QNode.checked, QNode.checkable,
        QNode.children, hrec]

/-- Auxiliary: `resetItem` changes nothing besides the `checked` entry. -/
theorem itemCore_resetItem (it : PItem) : itemCore (resetItem it) = itemCore it := by
  cases it <;> simp [itemCore, resetItem]

/-! ## Frame lemmas for the editor operations

Checkbox-only operations never change a row's text, level or item-data
optional entry; this is captured through projections `g` that are blind
to the two checkbox fields. -/

/-- `g` ignores the two checkbox fields. -/
def BoxBlind (g : Row → α) : Prop :=
  ∀ (r : Row) (v w : Bool), g (Row.mk r.text r.level r.optData v w) = g r

theorem boxBlind_level : BoxBlind (fun r => r.level) := fun _ _ _ => rfl

theorem boxBlind_text : BoxBlind (fun r => r.text) := fun _ _ _ => rfl

theorem boxBlind_optData : BoxBlind (fun r => r.optData) := fun _ _ _ => rfl

theorem modifyAt_map_eq {α : Type} (g : Row → α) (f : Row → Row)
    (hf : ∀ r, g (f r) = g r) : ∀ (i : Nat) (ls : List Row),
    (modifyAt f i ls).map g = ls.map g
  | _, [] => by simp [modifyAt]
  | 0, r :: rest => by simp [modifyAt, hf r]
  | i + 1, r :: rest => by simp [modifyAt, modifyAt_map_eq g f hf i rest]

theorem length_modifyAt (f : Row → Row) : ∀ (i : Nat) (ls : List Row),
    (modifyAt f i ls).length = ls.length
  | _, [] => by simp [modifyAt]
  | 0, r :: rest => rfl
  | i + 1, r :: rest => by simp [modifyAt, length_modifyAt f i rest]

theorem cascadeAux_map_eq {α : Type} (g : Row → α) (hg : BoxBlind g) (state : Bool)
    (l0 : Nat) : ∀ (xs : List Row), (cascadeAux state l0 xs).map g = xs.map g
  | [] => rfl
  | r :: rest => by
    by_cases h : r.level ≤ l0
    · simp [cascadeAux, h]
    · simp [cascadeAux, h, cascadeAux_map_eq g hg state l0 rest, hg r]

theorem cascadeOptional_map_eq {α : Type} (g : Row → α) (hg : BoxBlind g)
    (ls : List Row) (idx : Nat) (state : Bool) :
    (cascadeOptional ls idx state).map g = ls.map g := by
  unfold cascadeOptional
  rw [List.map_append, cascadeAux_map_eq g hg, ← List.map_append, List.take_append_drop]

theorem setCheckedSig_map_eq {α : Type} (g : Row → α) (hg : BoxBlind g)
    (ls : List Row) (idx : Nat) (v : Bool) :
    (setCheckedSig ls idx v).map g = ls.map g := by
  unfold setCheckedSig
  by_cases h : optC ls idx = v
  · simp [h]
  · rw [if_neg h, cascadeOptional_map_eq g hg, setOptChecked,
      modifyAt_map_eq g _ (fun r => hg r v r.optEnabled)]

theorem setOptEnabled_map_eq {α : Type} (g : Row → α) (hg : BoxBlind g)
    (ls : List Row) (idx : Nat) (v : Bool) :
    (setOptEnabled ls idx v).map g = ls.map g := by
  unfold setOptEnabled
  exact modifyAt_map_eq g _ (fun r => hg r r.optChecked v) idx ls

theorem syncOptionalWithParent_map_eq {α : Type} (g : Row → α) (hg : BoxBlind g)
    (ls : List Row) (idx : Nat) :
    (syncOptionalWithParent ls idx).map g = ls.map g := by
  unfold syncOptionalWithParent
  cases findParent ls (lvl ls idx) idx with
  | none => exact setOptEnabled_map_eq g hg ls idx true
  | some p =>
    by_cases h : optC ls p
    · simp only [h, if_true]
      rw [setOptEnabled_map_eq g hg, setCheckedSig_map_eq g hg]
    · simp only [h, if_false, Bool.false_eq_true]
      exact setOptEnabled_map_eq g hg ls idx true

/-- `lvl` through the level sequence. -/
theorem lvl_eq_levels (ls : List Row) (i : Nat) :
    lvl ls i = ((levels ls)[i]?).getD 0 := by
  simp [lvl, levels]

/-- `cascadeAux` as a `takeWhile`/`dropWhile` split. -/
theorem cascadeAux_eq (state : Bool) (l0 : Nat) : ∀ (xs : List Row),
    cascadeAux state l0 xs =
      (xs.takeWhile (fun r => decide (l0 < r.level))).map
          (fun r => { r with optChecked := state, optEnabled := !state })
        ++ xs.dropWhile (fun r => decide (l0 < r.level))
  | [] => rfl
  | r :: rest => by
    by_cases h : r.level ≤ l0
    · have : ¬ (l0 < r.level) := by omega
      simp [cascadeAux, h, List.takeWhile_cons, List.dropWhile_cons, this]
    · have hlt : l0 < r.level := by omega
      simp [cascadeAux, h, List.takeWhile_cons, List.dropWhile_cons, hlt,
        cascadeAux_eq state l0 rest]

/-- `shiftRunAux` as a `takeWhile`/`dropWhile` split. -/
theorem shiftRunAux_eq (lvl0 : Nat) (d : Int) : ∀ (xs : List Row),
    shiftRunAux lvl0 d xs =
      (xs.takeWhile (fun r => decide (lvl0 < r.level))).map
          (fun r => { r with level := ((r.level : Int) + d).toNat })
        ++ xs.dropWhile (fun r => decide (lvl0 < r.level))
  | [] => rfl
  | r :: rest => by
    by_cases h : r.level ≤ lvl0
    · have : ¬ (lvl0 < r.level) := by omega
      simp [shiftRunAux, h, List.takeWhile_cons, List.dropWhile_cons, this]
    · have hlt : lvl0 < r.level := by omega
      simp [shiftRunAux, h, List.takeWhile_cons, List.dropWhile_cons, hlt,
        shiftRunAux_eq lvl0 d rest]

theorem levels_eraseIdx : ∀ (ls : List Row) (i : Nat),
    levels (ls.eraseIdx i) = (levels ls).eraseIdx i
  | [], _ => rfl
  | r :: rest, 0 => rfl
  | r :: rest, i + 1 => by
    simp [levels, List.eraseIdx_cons_succ]
    simpa [levels] using levels_eraseIdx rest i

/-- Levels after one `_remove` descendant step: position `i` is set to
`origLevel - 1`, the rest is unchanged. -/
theorem levels_setLevel (ls : List Row) (i : Nat) (l : Nat) :
    levels (setLevel ls i l) = (levels ls).set i l := by
  unfold setLevel levels
  induction i generalizing ls with
  | zero => cases ls with
    | nil => rfl
    | cons r rest => simp [modifyAt]
  | succ j ih => cases ls with
    | nil => rfl
    | cons r rest => simp [modifyAt, ih rest]

theorem take_set_succ {α : Type} : ∀ (L : List α) (s : Nat) (v : α), s < L.length →
    (L.set s v).take (s + 1) = L.take s ++ [v]
  | [], _, _, h => by simp at h
  | x :: xs, 0, v, _ => by simp
  | x :: xs, s + 1, v, h => by
    simp only [List.set_cons_succ, List.take_succ_cons, List.cons_append]
    rw [take_set_succ xs s v (by simpa using h)]

theorem drop_set_of_lt {α : Type} : ∀ (L : List α) (s k : Nat) (v : α), s < k →
    (L.set s v).drop k = L.drop k
  | [], _, _, _, _ => by simp
  | x :: xs, 0, k, v, h => by
    cases k with
    | zero => omega
    | succ k' => simp
  | x :: xs, s + 1, k, v, h => by
    cases k with
    | zero => omega
    | succ k' => simpa using drop_set_of_lt xs s k' v (by omega)

theorem levels_remStep (ls : List Row) (i : Nat) (l : Nat) :
    levels (remStep ls i l) = (levels ls).set i (l - 1) := by
  have h1 : levels (remStep ls i l) = levels (setLevel ls i (l - 1)) := by
    unfold remStep levels
    rw [syncOptionalWithParent_map_eq _ boxBlind_level _ i,
      setOptEnabled_map_eq _ boxBlind_level _ i true]
  rw [h1, levels_setLevel]

/-- Levels after the whole `_remove` descendant loop over rows
`rs` sitting at positions `s, s+1, …` of `ls`. -/
theorem levels_remLoop : ∀ (rs : List Row) (ls : List Row) (s : Nat),
    s + rs.length ≤ ls.length →
    levels (remLoop (enumLevelsFrom s rs) ls) =
      (levels ls).take s ++ rs.map (fun r => r.level - 1) ++ (levels ls).drop (s + rs.length)
  | [], ls, s, _ => by simp [enumLevelsFrom, remLoop]
  | r :: rs', ls, s, h => by
    have hs : s < ls.length := by simp at h; omega
    have hs' : s < (levels ls).length := by simpa [levels] using hs
    have ih := levels_remLoop rs' (remStep ls s r.level) (s + 1) (by
      have : (remStep ls s r.level).length = ls.length := by
        have := congrArg List.length (levels_remStep ls s r.level)
        simpa [levels] using this
      simp at h ⊢
      omega)
    rw [enumLevelsFrom, remLoop, ih, levels_remStep, take_set_succ _ _ _ hs',
      drop_set_of_lt _ _ _ _ (by omega)]
    have hix : s + 1 + rs'.length = s + (rs'.length + 1) := by omega
    simp [List.append_assoc, hix]

/-- Levels after `_add_after`. -/
theorem levels_addAfter (ls : List Row) (idx : Nat) :
    levels (addAfter ls idx) = (levels ls).take (idx + 1) ++
      (if idx + 1 < ls.length && decide (lvl ls idx < lvl ls (idx + 1)) then lvl ls (idx + 1)
        else lvl ls idx) :: (levels ls).drop (idx + 1) := by
  unfold addAfter levels
  simp [List.map_take, List.map_drop]

theorem eraseIdx_take_succ {α : Type} : ∀ (L : List α) (s : Nat),
    (L.take (s + 1)).eraseIdx s = L.take s
  | [], s => by simp
  | x :: xs, 0 => by simp
  | x :: xs, s + 1 => by
    simp only [List.take_succ_cons, List.eraseIdx_cons_succ]
    rw [eraseIdx_take_succ xs s]

theorem drop_length_takeWhile {α : Type} (p : α → Bool) : ∀ (xs : List α),
    xs.drop ((xs.takeWhile p).length) = xs.dropWhile p
  | [] => rfl
  | x :: xs => by
    by_cases hx : p x
    · simp [List.takeWhile_cons, List.dropWhile_cons, hx, drop_length_takeWhile p xs]
    · simp [List.takeWhile_cons, List.dropWhile_cons, hx]

/-- Levels after `_remove` (non-singleton lists): the node goes away,
its contiguous deeper run is decremented, the rest is untouched. -/
theorem levels_removeItem (ls : List Row) (idx : Nat) (h1 : ls.length ≠ 1)
    (hidx : idx < ls.length) :
    levels (removeItem ls idx) =
      (levels ls).take idx ++
        ((((levels ls).drop (idx + 1)).takeWhile (fun x => decide (lvl ls idx < x))).map
            (fun x => x - 1) ++
          ((levels ls).drop (idx + 1)).dropWhile (fun x => decide (lvl ls idx < x))) := by
  have hrun : ((levels ls).drop (idx + 1)).takeWhile (fun x => decide (lvl ls idx < x)) =
      ((ls.drop (idx + 1)).takeWhile (fun r => decide (lvl ls idx < r.level))).map
        (fun r => r.level) := by
    unfold levels
    rw [← List.map_drop, List.takeWhile_map]
    rfl
  have hdw : ((levels ls).drop (idx + 1)).dropWhile (fun x => decide (lvl ls idx < x)) =
      ((ls.drop (idx + 1)).dropWhile (fun r => decide (lvl ls idx < r.level))).map
        (fun r => r.level) := by
    unfold levels
    rw [← List.map_drop, List.dropWhile_map]
    rfl
  set run := (ls.drop (idx + 1)).takeWhile (fun r => decide (lvl ls idx < r.level)) with hrundef
  have hrblen : run.length ≤ ls.length - (idx + 1) := by
    have ha : run.length ≤ (ls.drop (idx + 1)).length := by
      have hsub : List.Sublist run (ls.drop (idx + 1)) := by
        rw [hrundef]
        exact List.takeWhile_sublist _
      exact hsub.length_le
    have h2 : (ls.drop (idx + 1)).length = ls.length - (idx + 1) := by simp
    omega
  have hloop := levels_remLoop run ls (idx + 1) (by omega)
  have hlvllen : (levels ls).length = ls.length := by simp [levels]
  have hlenrun : (((levels ls).drop (idx + 1)).takeWhile
      (fun x => decide (lvl ls idx < x))).length = run.length := by
    rw [hrun, List.length_map]
  have hdrop : (levels ls).drop (idx + 1 + run.length) =
      ((levels ls).drop (idx + 1)).dropWhile (fun x => decide (lvl ls idx < x)) := by
    rw [← List.drop_drop, ← hlenrun, drop_length_takeWhile]
  have hlt1 : idx < ((levels ls).take (idx + 1)).length := by
    simp [List.length_take]
    omega
  have hlt2 : idx < ((levels ls).take (idx + 1) ++
      List.map (fun r => Row.level r - 1) run).length := by
    simp [List.length_take]
    omega
  unfold removeItem
  rw [if_neg (by simpa using h1)]
  rw [levels_eraseIdx]
  unfold descPairs
  rw [← hrundef, hloop, List.eraseIdx_append_of_lt_length hlt2,
    List.eraseIdx_append_of_lt_length hlt1, eraseIdx_take_succ, hdrop, hrun, List.map_map,
    List.append_assoc]
  rfl



theorem levels_indentPresync (ls : List Row) (idx : Nat) (nl : Int) :
    levels (indentPresync ls idx nl) = levels ls := by
  unfold indentPresync
  split
  · show levels (setOptData (setCheckedSig ls idx false) idx false) = levels ls
    unfold setOptData levels
    rw [modifyAt_map_eq (fun r => r.level) (fun r => { r with optData := false })
      (fun r => rfl)]
    exact setCheckedSig_map_eq _ boxBlind_level _ idx false
  · split
    · split
      · rfl
      · exact setCheckedSig_map_eq _ boxBlind_level _ idx false
    · rfl

theorem levels_syncOptionalWithParent (ls : List Row) (idx : Nat) :
    levels (syncOptionalWithParent ls idx) = levels ls := by
  unfold levels
  exact syncOptionalWithParent_map_eq _ boxBlind_level _ idx

/-- Levels after the shift loop of `_indent`. -/
theorem levels_shiftRun (ls : List Row) (idx lvl0 : Nat) (d : Int) :
    levels (shiftRun ls idx lvl0 d) =
      (levels ls).take (idx + 1) ++
        (((ls.drop (idx + 1)).takeWhile (fun r => decide (lvl0 < r.level))).map
            (fun r => ((r.level : Int) + d).toNat) ++
          levels ((ls.drop (idx + 1)).dropWhile (fun r => decide (lvl0 < r.level)))) := by
  unfold shiftRun levels
  rw [List.map_append, List.map_take, shiftRunAux_eq, List.map_append, List.map_map]
  rfl

/-- Levels after `_indent`: validation failure leaves all levels
untouched; success sets the node's level to `curLevel + delta` and
shifts its contiguous deeper run by `delta`. -/
theorem levels_indentItem (ls : List Row) (idx : Nat) (delta : Int)
    (hidx : idx < ls.length) :
    levels (indentItem ls idx delta) =
      if indentValid ls idx delta = true then
        (levels ls).take idx ++ ((lvl ls idx : Int) + delta).toNat ::
          ((((levels ls).drop (idx + 1)).takeWhile (fun x => decide (lvl ls idx < x))).map
              (fun (x : Nat) => ((x : Int) + delta).toNat) ++
            ((levels ls).drop (idx + 1)).dropWhile (fun x => decide (lvl ls idx < x)))
      else levels ls := by
  have hL1 : levels (indentPresync ls idx ((lvl ls idx : Int) + delta)) = levels ls :=
    levels_indentPresync ls idx _
  have hlvl1 : lvl (indentPresync ls idx ((lvl ls idx : Int) + delta)) (idx - 1) =
      lvl ls (idx - 1) := by
    rw [lvl_eq_levels, hL1, ← lvl_eq_levels]
  unfold indentItem
  by_cases hneg : ((lvl ls idx : Int) + delta) < 0
  · rw [if_pos hneg, hL1, if_neg]
    simp only [indentValid, Bool.and_eq_true, decide_eq_true_eq]
    rintro ⟨⟨h0, -⟩, -⟩
    omega
  · rw [if_neg hneg]
    by_cases hfst : idx = 0 ∧ ((lvl ls idx : Int) + delta) ≠ 0
    · rw [if_pos hfst, hL1, if_neg]
      simp only [indentValid, Bool.and_eq_true, Bool.or_eq_true, decide_eq_true_eq]
      rintro ⟨⟨-, hmid⟩, -⟩
      rcases hmid with h | h
      · exact h hfst.1
      · exact hfst.2 h
    · rw [if_neg hfst]
      by_cases hjump : ((if 0 < idx then
          lvl (indentPresync ls idx ((lvl ls idx : Int) + delta)) (idx - 1) else 0 : Nat) : Int)
          + 1 < (lvl ls idx : Int) + delta
      · rw [if_pos hjump, hL1, if_neg]
        simp only [indentValid, Bool.and_eq_true, decide_eq_true_eq]
        rintro ⟨-, hle⟩
        rcases Nat.eq_zero_or_pos idx with h0 | hpos
        · subst h0
          rw [if_neg (by omega)] at hjump
          rw [if_neg (by omega)] at hle
          omega
        · rw [if_pos hpos, hlvl1] at hjump
          rw [if_pos hpos] at hle
          omega
      · have hvalid : indentValid ls idx delta = true := by
          simp only [indentValid, Bool.and_eq_true, Bool.or_eq_true, decide_eq_true_eq]
          refine ⟨⟨by omega, ?_⟩, ?_⟩
          · by_cases h0 : idx = 0
            · right
              by_contra hne
              exact hfst ⟨h0, hne⟩
            · left
              exact h0
          · rcases Nat.eq_zero_or_pos idx with h0 | hpos
            · have hz : (lvl ls idx : Int) + delta = 0 := by
                by_contra hne
                exact hfst ⟨h0, hne⟩
              rw [hz, if_neg (by omega)]
              omega
            · rw [if_pos hpos, hlvl1] at hjump
              rw [if_pos hpos]
              omega
        rw [if_neg hjump, if_pos hvalid]
        rw [levels_syncOptionalWithParent, levels_shiftRun]
        have hlen2 : idx < (levels ls).length := by simpa [levels] using hidx
        set ls2 := setLevel (indentPresync ls idx ((lvl ls idx : Int) + delta)) idx
          ((lvl ls idx : Int) + delta).toNat with hls2
        have hset : levels ls2 = (levels ls).set idx ((lvl ls idx : Int) + delta).toNat := by
          rw [hls2, levels_setLevel, hL1]
        have hdrop2 : (levels ls2).drop (idx + 1) = (levels ls).drop (idx + 1) := by
          rw [hset, drop_set_of_lt _ _ _ _ (by omega)]
        have hd : (((lvl ls idx : Int) + delta) - (lvl ls idx : Int)) = delta := by ring
        have hTW : (((levels ls).drop (idx + 1)).takeWhile
              (fun x => decide (lvl ls idx < x))).map (fun (x : Nat) => ((x : Int) + delta).toNat) =
            ((ls2.drop (idx + 1)).takeWhile (fun r => decide (lvl ls idx < r.level))).map
              (fun r => ((r.level : Int) + delta).toNat) := by
          rw [← hdrop2]
          unfold levels
          rw [← List.map_drop, List.takeWhile_map, List.map_map]
          rfl
        have hDW : ((levels ls).drop (idx + 1)).dropWhile (fun x => decide (lvl ls idx < x)) =
            levels ((ls2.drop (idx + 1)).dropWhile (fun r => decide (lvl ls idx < r.level))) := by
          rw [← hdrop2]
          unfold levels
          rw [← List.map_drop, List.dropWhile_map]
          rfl
        rw [hTW, hDW, hset, take_set_succ _ _ _ hlen2, hd, List.append_assoc,
          List.singleton_append]

/-! ## The level invariant under the three structural edits -/

theorem levChain_insert : ∀ (idx : Nat) (L : List Nat) (p : Nat), idx < L.length →
    levChain p L = true →
    levChain p (L.take (idx + 1) ++
      (if idx + 1 < L.length && decide ((L[idx]?).getD 0 < (L[idx + 1]?).getD 0)
        then (L[idx + 1]?).getD 0 else (L[idx]?).getD 0) :: L.drop (idx + 1)) = true
  | 0, l :: rest, p, _, h => by
    cases rest with
    | nil =>
      simp only [levChain, Bool.and_eq_true, decide_eq_true_eq] at h
      simp only [List.length_cons, List.length_nil, List.take_succ_cons, List.take_nil,
        List.drop_succ_cons, List.drop_nil, List.getElem?_cons_zero, List.getElem?_cons_succ,
        List.getElem?_nil, Option.getD_some]
      rw [if_neg (by simp)]
      simp [levChain]
      omega
    | cons r rest' =>
      simp only [levChain, Bool.and_eq_true, decide_eq_true_eq] at h
      simp only [List.length_cons, List.take_succ_cons, List.take_zero,
        List.drop_succ_cons, List.drop_zero, List.getElem?_cons_zero, List.getElem?_cons_succ,
        Option.getD_some]
      by_cases hc : l < r
      · rw [if_pos (by
          simp only [Bool.and_eq_true, decide_eq_true_eq]
          exact ⟨by omega, hc⟩)]
        simp only [List.nil_append, levChain, Bool.and_eq_true, decide_eq_true_eq]
        exact ⟨h.1, by omega, by omega, h.2.2⟩
      · rw [if_neg (by
          simp only [Bool.and_eq_true, decide_eq_true_eq, not_and]
          intro _
          omega)]
        simp only [List.nil_append, levChain, Bool.and_eq_true, decide_eq_true_eq]
        exact ⟨h.1, by omega, by omega, h.2.2⟩
  | idx + 1, l :: rest, p, hlen, h => by
    simp only [levChain, Bool.and_eq_true, decide_eq_true_eq] at h
    have ih := levChain_insert idx rest l (by simpa using hlen) h.2
    simp only [List.length_cons, List.take_succ_cons, List.drop_succ_cons,
      List.getElem?_cons_succ, List.cons_append]
    simp only [levChain, Bool.and_eq_true, decide_eq_true_eq]
    refine ⟨h.1, ?_⟩
    have hgoal : (idx + 1 + 1 < rest.length + 1) ↔ (idx + 1 < rest.length) := by omega
    simpa only [hgoal, Bool.and_eq_true, decide_eq_true_eq] using ih

theorem levelInv_insertAfter (idx : Nat) (L : List Nat) (hlen : idx < L.length)
    (hinv : levelInv L = true) :
    levelInv (L.take (idx + 1) ++
      (if idx + 1 < L.length && decide ((L[idx]?).getD 0 < (L[idx + 1]?).getD 0)
        then (L[idx + 1]?).getD 0 else (L[idx]?).getD 0) :: L.drop (idx + 1)) = true := by
  cases L with
  | nil => simp at hlen
  | cons l rest =>
    simp only [levelInv, Bool.and_eq_true, beq_iff_eq] at hinv
    cases idx with
    | zero =>
      cases rest with
      | nil =>
        simp only [List.length_cons, List.length_nil, List.take_succ_cons, List.take_nil,
          List.drop_succ_cons, List.drop_nil, List.getElem?_cons_zero, List.getElem?_cons_succ,
          List.getElem?_nil, Option.getD_some]
        rw [if_neg (by simp)]
        simp [levelInv, levChain, hinv.1]
      | cons r rest' =>
        simp only [levChain, Bool.and_eq_true, decide_eq_true_eq] at hinv
        simp only [List.length_cons, List.take_succ_cons, List.take_zero,
          List.drop_succ_cons, List.drop_zero, List.getElem?_cons_zero, List.getElem?_cons_succ,
          Option.getD_some]
        by_cases hc : l < r
        · rw [if_pos (by
            simp only [Bool.and_eq_true, decide_eq_true_eq]
            exact ⟨by omega, hc⟩)]
          simp only [List.singleton_append, levelInv, levChain, Bool.and_eq_true,
            decide_eq_true_eq, beq_iff_eq]
          exact ⟨hinv.1, by omega, by omega, hinv.2.2⟩
        · rw [if_neg (by
            simp only [Bool.and_eq_true, decide_eq_true_eq, not_and]
            intro _
            omega)]
          simp only [List.singleton_append, levelInv, levChain, Bool.and_eq_true,
            decide_eq_true_eq, beq_iff_eq]
          exact ⟨hinv.1, by omega, by omega, hinv.2.2⟩
    | succ j =>
      have ih := levChain_insert j rest l (by simpa using hlen) hinv.2
      simp only [List.length_cons, List.take_succ_cons, List.drop_succ_cons,
        List.getElem?_cons_succ, List.cons_append]
      simp only [levelInv, Bool.and_eq_true, beq_iff_eq]
      refine ⟨hinv.1, ?_⟩
      have hgoal : (j + 1 + 1 < rest.length + 1) ↔ (j + 1 < rest.length) := by omega
      simpa only [hgoal, Bool.and_eq_true, decide_eq_true_eq] using ih

theorem levChain_decRun : ∀ (ts : List Nat) (c prev : Nat), c < prev →
    levChain prev ts = true →
    levChain (prev - 1) ((ts.takeWhile (fun x => decide (c < x))).map (fun x => x - 1) ++
      ts.dropWhile (fun x => decide (c < x))) = true
  | [], _, _, _, _ => by simp [levChain]
  | t :: ts', c, prev, hcp, h => by
    simp only [levChain, Bool.and_eq_true, decide_eq_true_eq] at h
    by_cases ht : c < t
    · have ih := levChain_decRun ts' c t ht h.2
      simp only [List.takeWhile_cons, List.dropWhile_cons, ht, decide_True, if_true,
        List.map_cons, List.cons_append]
      simp only [levChain, Bool.and_eq_true, decide_eq_true_eq]
      exact ⟨by omega, ih⟩
    · simp only [List.takeWhile_cons, List.dropWhile_cons, ht, decide_False, if_false,
        List.map_nil, List.nil_append]
      simp only [levChain, Bool.and_eq_true, decide_eq_true_eq]
      exact ⟨by omega, h.2⟩

theorem levChain_remove : ∀ (idx : Nat) (ts : List Nat) (p : Nat), idx < ts.length →
    levChain p ts = true →
    levChain p (ts.take idx ++
      (((ts.drop (idx + 1)).takeWhile (fun x => decide ((ts[idx]?).getD 0 < x))).map
          (fun x => x - 1) ++
        (ts.drop (idx + 1)).dropWhile (fun x => decide ((ts[idx]?).getD 0 < x)))) = true
  | 0, c :: tail, p, _, h => by
    simp only [levChain, Bool.and_eq_true, decide_eq_true_eq] at h
    simp only [List.take_zero, List.drop_succ_cons, List.drop_zero, List.getElem?_cons_zero,
      Option.getD_some, List.nil_append]
    cases tail with
    | nil => simp [levChain]
    | cons t ts' =>
      simp only [levChain, Bool.and_eq_true, decide_eq_true_eq] at h
      by_cases ht : c < t
      · have ih := levChain_decRun ts' c t ht h.2.2
        simp only [List.takeWhile_cons, List.dropWhile_cons, ht, decide_True, if_true,
          List.map_cons, List.cons_append]
        simp only [levChain, Bool.and_eq_true, decide_eq_true_eq]
        exact ⟨by omega, ih⟩
      · simp only [List.takeWhile_cons, List.dropWhile_cons, ht, decide_False, if_false,
          List.map_nil, List.nil_append]
        simp only [levChain, Bool.and_eq_true, decide_eq_true_eq]
        exact ⟨by omega, h.2.2⟩
  | idx + 1, l :: rest, p, hlen, h => by
    simp only [levChain, Bool.and_eq_true, decide_eq_true_eq] at h
    have ih := levChain_remove idx rest l (by simpa using hlen) h.2
    simp only [List.take_succ_cons, List.drop_succ_cons, List.getElem?_cons_succ,
      List.cons_append]
    simp only [levChain, Bool.and_eq_true, decide_eq_true_eq]
    exact ⟨h.1, ih⟩

theorem levelInv_remove (idx : Nat) (L : List Nat) (hlen : idx < L.length)
    (hinv : levelInv L = true) :
    levelInv (L.take idx ++
      (((L.drop (idx + 1)).takeWhile (fun x => decide ((L[idx]?).getD 0 < x))).map
          (fun x => x - 1) ++
        (L.drop (idx + 1)).dropWhile (fun x => decide ((L[idx]?).getD 0 < x)))) = true := by
  cases L with
  | nil => simp at hlen
  | cons l rest =>
    simp only [levelInv, Bool.and_eq_true, beq_iff_eq] at hinv
    cases idx with
    | zero =>
      simp only [List.take_zero, List.drop_succ_cons, List.drop_zero, List.getElem?_cons_zero,
        Option.getD_some, List.nil_append]
      cases rest with
      | nil => simp [levelInv]
      | cons t ts' =>
        simp only [levChain, Bool.and_eq_true, decide_eq_true_eq] at hinv
        by_cases ht : l < t
        · have ih := levChain_decRun ts' l t ht hinv.2.2
          simp only [List.takeWhile_cons, List.dropWhile_cons, ht, decide_True, if_true,
            List.map_cons, List.cons_append]
          simp only [levelInv, Bool.and_eq_true, beq_iff_eq]
          refine ⟨by omega, ?_⟩
          have htz : t - 1 = 0 := by omega
          rw [htz] at ih ⊢
          exact ih
        · simp only [List.takeWhile_cons, List.dropWhile_cons, ht, decide_False,
            Bool.false_eq_true, if_false, List.map_nil, List.nil_append]
          simp only [levelInv, Bool.and_eq_true, beq_iff_eq]
          exact ⟨by omega, hinv.2.2⟩
    | succ j =>
      have ih := levChain_remove j rest l (by simpa using hlen) hinv.2
      simp only [List.take_succ_cons, List.drop_succ_cons, List.getElem?_cons_succ,
        List.cons_append]
      simp only [levelInv, Bool.and_eq_true, beq_iff_eq]
      exact ⟨hinv.1, ih⟩

theorem levChain_shiftRun : ∀ (ts : List Nat) (c prev : Nat) (d : Int), c ≤ prev →
    -1 ≤ d → 0 ≤ (prev : Int) + d → levChain prev ts = true →
    levChain ((prev : Int) + d).toNat
      ((ts.takeWhile (fun x => decide (c < x))).map (fun (x : Nat) => ((x : Int) + d).toNat) ++
        ts.dropWhile (fun x => decide (c < x))) = true
  | [], _, _, _, _, _, _, _ => by simp [levChain]
  | t :: ts', c, prev, d, hcp, hd, hnn, h => by
    simp only [levChain, Bool.and_eq_true, decide_eq_true_eq] at h
    by_cases ht : c < t
    · have ih := levChain_shiftRun ts' c t d (by omega) hd (by omega) h.2
      simp only [List.takeWhile_cons, List.dropWhile_cons, ht, decide_True, if_true,
        List.map_cons, List.cons_append]
      simp only [levChain, Bool.and_eq_true, decide_eq_true_eq]
      exact ⟨by omega, ih⟩
    · simp only [List.takeWhile_cons, List.dropWhile_cons, ht, decide_False,
        Bool.false_eq_true, if_false, List.map_nil, List.nil_append]
      simp only [levChain, Bool.and_eq_true, decide_eq_true_eq]
      exact ⟨by omega, h.2⟩

theorem levChain_indent : ∀ (idx : Nat) (ts : List Nat) (p : Nat) (d : Int), idx < ts.length →
    -1 ≤ d → 0 ≤ ((ts[idx]?).getD 0 : Int) + d →
    ((ts[idx]?).getD 0 : Int) + d ≤
      (if idx = 0 then (p : Int) else ((ts[idx - 1]?).getD 0 : Int)) + 1 →
    levChain p ts = true →
    levChain p (ts.take idx ++ (((ts[idx]?).getD 0 : Int) + d).toNat ::
      (((ts.drop (idx + 1)).takeWhile (fun x => decide ((ts[idx]?).getD 0 < x))).map
          (fun (x : Nat) => ((x : Int) + d).toNat) ++
        (ts.drop (idx + 1)).dropWhile (fun x => decide ((ts[idx]?).getD 0 < x)))) = true
  | 0, c :: tail, p, d, _, hd, hnn, hval, h => by
    simp only [levChain, Bool.and_eq_true, decide_eq_true_eq] at h
    simp only [List.getElem?_cons_zero, Option.getD_some, if_true] at hnn hval
    simp only [List.take_zero, List.drop_succ_cons, List.drop_zero, List.getElem?_cons_zero,
      Option.getD_some, List.nil_append]
    have hsh := levChain_shiftRun tail c c d (Nat.le_refl c) hd hnn h.2
    simp only [levChain, Bool.and_eq_true, decide_eq_true_eq]
    exact ⟨by omega, hsh⟩
  | idx + 1, l :: rest, p, d, hlen, hd, hnn, hval, h => by
    simp only [levChain, Bool.and_eq_true, decide_eq_true_eq] at h
    simp only [List.getElem?_cons_succ] at hnn hval
    have hval' : ((rest[idx]?).getD 0 : Int) + d ≤
        (if idx = 0 then (l : Int) else ((rest[idx - 1]?).getD 0 : Int)) + 1 := by
      rw [if_neg (by omega)] at hval
      cases idx with
      | zero => simpa using hval
      | succ j => simpa using hval
    have ih := levChain_indent idx rest l d (by simpa using hlen) hd hnn hval' h.2
    simp only [List.take_succ_cons, List.drop_succ_cons, List.getElem?_cons_succ,
      List.cons_append]
    simp only [levChain, Bool.and_eq_true, decide_eq_true_eq]
    exact ⟨h.1, ih⟩

theorem levelInv_indent (idx : Nat) (L : List Nat) (d : Int) (hpos : 0 < idx)
    (hlen : idx < L.length) (hd : -1 ≤ d) (hnn : 0 ≤ ((L[idx]?).getD 0 : Int) + d)
    (hval : ((L[idx]?).getD 0 : Int) + d ≤ ((L[idx - 1]?).getD 0 : Int) + 1)
    (hinv : levelInv L = true) :
    levelInv (L.take idx ++ (((L[idx]?).getD 0 : Int) + d).toNat ::
      (((L.drop (idx + 1)).takeWhile (fun x => decide ((L[idx]?).getD 0 < x))).map
          (fun (x : Nat) => ((x : Int) + d).toNat) ++
        (L.drop (idx + 1)).dropWhile (fun x => decide ((L[idx]?).getD 0 < x)))) = true := by
  cases L with
  | nil => simp at hlen
  | cons l rest =>
    obtain ⟨j, rfl⟩ : ∃ j, idx = j + 1 := ⟨idx - 1, by omega⟩
    simp only [levelInv, Bool.and_eq_true, beq_iff_eq] at hinv
    simp only [List.getElem?_cons_succ] at hnn hval ⊢
    have hval' : ((rest[j]?).getD 0 : Int) + d ≤
        (if j = 0 then (l : Int) else ((rest[j - 1]?).getD 0 : Int)) + 1 := by
      cases j with
      | zero => simpa using hval
      | succ k => simpa using hval
    have ih := levChain_indent j rest l d (by simpa using hlen) hd hnn hval' hinv.2
    simp only [List.take_succ_cons, List.drop_succ_cons, List.cons_append]
    simp only [levelInv, Bool.and_eq_true, beq_iff_eq]
    exact ⟨hinv.1, ih⟩

theorem levelInv_head (L : List Nat) (h : levelInv L = true) :
    (L[0]?).getD 0 = 0 := by
  cases L with
  | nil => simp
  | cons l rest =>
    simp only [levelInv, Bool.and_eq_true, beq_iff_eq] at h
    simpa using h.1

theorem levelInv_indentItem (ls : List Row) (i : Nat) (d : Int) (hd : -1 ≤ d) (hnz : d ≠ 0)
    (hi : i < ls.length) (h : levelInv (levels ls) = true) :
    levelInv (levels (indentItem ls i d)) = true := by
  rw [levels_indentItem ls i d hi]
  by_cases hv : indentValid ls i d = true
  · rw [if_pos hv]
    simp only [indentValid, Bool.and_eq_true, Bool.or_eq_true, decide_eq_true_eq] at hv
    obtain ⟨⟨hnn, hmid⟩, hle⟩ := hv
    have hhead := levelInv_head (levels ls) h
    rw [← lvl_eq_levels ls 0] at hhead
    have hpos : 0 < i := by
      by_contra hz
      have hz0 : i = 0 := by omega
      rcases hmid with h0 | h0
      · exact h0 hz0
      · rw [hz0] at h0
        omega
    rw [if_pos hpos] at hle
    have hlen' : i < (levels ls).length := by simpa [levels] using hi
    simp only [lvl_eq_levels] at hnn hle ⊢
    exact levelInv_indent i (levels ls) d hpos hlen' hd hnn hle h
  · rwa [if_neg hv]

theorem levelInv_applyOp (ls : List Row) (op : EditOp)
    (h : levelInv (levels ls) = true) : levelInv (levels (applyOp ls op)) = true := by
  cases op with
  | insertAfter i =>
    simp only [applyOp]
    by_cases hi : i < ls.length
    · rw [if_pos hi, levels_addAfter]
      have hL : ls.length = (levels ls).length := by simp [levels]
      simp only [lvl_eq_levels, hL]
      exact levelInv_insertAfter i (levels ls) (by omega) h
    · rwa [if_neg hi]
  | removeAt i =>
    simp only [applyOp]
    by_cases hi : i < ls.length
    · rw [if_pos hi]
      by_cases h1 : ls.length = 1
      · unfold removeItem
        rw [if_pos (by simpa using h1)]
        exact h
      · rw [levels_removeItem ls i h1 hi]
        simp only [lvl_eq_levels]
        exact levelInv_remove i (levels ls) (by simpa [levels] using hi) h
    · rwa [if_neg hi]
  | indentLeft i =>
    simp only [applyOp]
    by_cases hi : i < ls.length
    · rw [if_pos hi]
      exact levelInv_indentItem ls i (-1) (by norm_num) (by norm_num) hi h
    · rwa [if_neg hi]
  | indentRight i =>
    simp only [applyOp]
    by_cases hi : i < ls.length
    · rw [if_pos hi]
      exact levelInv_indentItem ls i 1 (by norm_num) (by norm_num) hi h
    · rwa [if_neg hi]

theorem shiftRunAux_map_eq {α : Type} (g : Row → α)
    (hg : ∀ (r : Row) (l : Nat), g { r with level := l } = g r) (lvl0 : Nat) (d : Int) :
    ∀ (xs : List Row), (shiftRunAux lvl0 d xs).map g = xs.map g
  | [] => rfl
  | r :: rest => by
    by_cases h : r.level ≤ lvl0
    · simp [shiftRunAux, h]
    · simp [shiftRunAux, h, shiftRunAux_map_eq g hg lvl0 d rest, hg r]

theorem texts_indentPresync (ls : List Row) (idx : Nat) (nl : Int) :
    texts (indentPresync ls idx nl) = texts ls := by
  unfold indentPresync
  split
  · show texts (setOptData (setCheckedSig ls idx false) idx false) = texts ls
    unfold setOptData texts
    rw [modifyAt_map_eq (fun r => r.text) (fun r => { r with optData := false })
      (fun r => rfl)]
    exact setCheckedSig_map_eq _ boxBlind_text _ idx false
  · split
    · split
      · rfl
      · exact setCheckedSig_map_eq _ boxBlind_text _ idx false
    · rfl

theorem texts_indentItem (ls : List Row) (idx : Nat) (delta : Int) :
    texts (indentItem ls idx delta) = texts ls := by
  have hpre := texts_indentPresync ls idx ((lvl ls idx : Int) + delta)
  unfold indentItem
  by_cases hneg : ((lvl ls idx : Int) + delta) < 0
  · rwa [if_pos hneg]
  · rw [if_neg hneg]
    by_cases hfst : idx = 0 ∧ ((lvl ls idx : Int) + delta) ≠ 0
    · rwa [if_pos hfst]
    · rw [if_neg hfst]
      by_cases hjump : ((if 0 < idx then
          lvl (indentPresync ls idx ((lvl ls idx : Int) + delta)) (idx - 1) else 0 : Nat) : Int)
          + 1 < (lvl ls idx : Int) + delta
      · rwa [if_pos hjump]
      · rw [if_neg hjump]
        unfold texts
        rw [syncOptionalWithParent_map_eq _ boxBlind_text]
        unfold shiftRun
        rw [List.map_append, shiftRunAux_map_eq (fun r => r.text) (fun r l => rfl),
          ← List.map_append, List.take_append_drop]
        unfold setLevel
        rw [modifyAt_map_eq (fun r => r.text) (fun r => { r with level :=
          ((lvl ls idx : Int) + delta).toNat }) (fun r => rfl)]
        exact hpre

/-- When validation fails, `_indent` stops right after its
pre-validation block. -/
theorem indentItem_invalid (ls : List Row) (idx : Nat) (delta : Int)
    (hinvalid : indentValid ls idx delta = false) :
    indentItem ls idx delta = indentPresync ls idx ((lvl ls idx : Int) + delta) := by
  have hlvl1 : lvl (indentPresync ls idx ((lvl ls idx : Int) + delta)) (idx - 1) =
      lvl ls (idx - 1) := by
    rw [lvl_eq_levels, levels_indentPresync, ← lvl_eq_levels]
  unfold indentItem
  by_cases hneg : ((lvl ls idx : Int) + delta) < 0
  · rw [if_pos hneg]
  · rw [if_neg hneg]
    by_cases hfst : idx = 0 ∧ ((lvl ls idx : Int) + delta) ≠ 0
    · rw [if_pos hfst]
    · rw [if_neg hfst]
      by_cases hjump : ((if 0 < idx then
          lvl (indentPresync ls idx ((lvl ls idx : Int) + delta)) (idx - 1) else 0 : Nat) : Int)
          + 1 < (lvl ls idx : Int) + delta
      · rw [if_pos hjump]
      · exfalso
        have hvalid : indentValid ls idx delta = true := by
          simp only [indentValid, Bool.and_eq_true, Bool.or_eq_true, decide_eq_true_eq]
          refine ⟨⟨by omega, ?_⟩, ?_⟩
          · by_cases h0 : idx = 0
            · right
              by_contra hne
              exact hfst ⟨h0, hne⟩
            · left
              exact h0
          · rcases Nat.eq_zero_or_pos idx with h0 | hpos
            · have hz : (lvl ls idx : Int) + delta = 0 := by
                by_contra hne
                exact hfst ⟨h0, hne⟩
              rw [hz, if_neg (by omega)]
              omega
            · rw [if_pos hpos, hlvl1] at hjump
              rw [if_pos hpos]
              omega
        rw [hvalid] at hinvalid
        exact absurd hinvalid (by simp)

theorem optDatas_indentPresync_ne (ls : List Row) (idx : Nat) (nl : Int) (hnz : nl ≠ 0) :
    optDatas (indentPresync ls idx nl) = optDatas ls := by
  unfold indentPresync
  rw [if_neg hnz]
  cases findParentI ls nl idx with
  | none => rfl
  | some p =>
    by_cases h : optC ls p
    · simp [h]
    · simp only [h, Bool.false_eq_true, if_false]
      exact setCheckedSig_map_eq _ boxBlind_optData _ idx false

/-! ## Index-level helper lemmas -/

/-- Indexing into a `drop` shifts the index. -/
theorem getElem?_drop_add {α : Type} : ∀ (l : List α) (n i : Nat),
    (l.drop n)[i]? = l[n + i]?
  | _, 0, _ => by simp
  | [], n + 1, _ => by simp
  | x :: xs, n + 1, i => by
    rw [List.drop_succ_cons, getElem?_drop_add xs n i]
    have h : n + 1 + i = n + i + 1 := by omega
    rw [h, List.getElem?_cons_succ]

/-- `modifyAt` at the modified index. -/
theorem getElem?_modifyAt_self (f : Row → Row) : ∀ (i : Nat) (ls : List Row),
    (modifyAt f i ls)[i]? = (ls[i]?).map f
  | _, [] => by simp [modifyAt]
  | 0, r :: rest => by simp [modifyAt]
  | i + 1, r :: rest => by
    simp only [modifyAt, List.getElem?_cons_succ]
    exact getElem?_modifyAt_self f i rest

/-- `modifyAt` away from the modified index. -/
theorem getElem?_modifyAt_ne (f : Row → Row) : ∀ (i j : Nat) (ls : List Row), j ≠ i →
    (modifyAt f i ls)[j]? = ls[j]?
  | _, _, [], _ => by simp [modifyAt]
  | 0, 0, _ :: _, h => absurd rfl h
  | 0, _ + 1, r :: rest, _ => by simp [modifyAt]
  | _ + 1, 0, r :: rest, _ => by simp [modifyAt]
  | i + 1, j + 1, r :: rest, h => by
    simp only [modifyAt, List.getElem?_cons_succ]
    exact getElem?_modifyAt_ne f i j rest (by omega)

/-- Dropping past the modified index erases the modification. -/
theorem drop_succ_modifyAt (f : Row → Row) : ∀ (i : Nat) (ls : List Row),
    (modifyAt f i ls).drop (i + 1) = ls.drop (i + 1)
  | _, [] => by simp [modifyAt]
  | 0, r :: rest => by simp [modifyAt]
  | i + 1, r :: rest => by
    simp only [modifyAt, List.drop_succ_cons]
    exact drop_succ_modifyAt f i rest

/-- Indexing around an `eraseIdx`. -/
theorem getElem?_eraseIdx_split {α : Type} (l : List α) (i j : Nat) (hi : i < l.length) :
    (l.eraseIdx i)[j]? = if j < i then l[j]? else l[j + 1]? := by
  rw [List.eraseIdx_eq_take_drop_succ]
  have hlt : (l.take i).length = i := by
    rw [List.length_take]; omega
  by_cases hj : j < i
  · rw [if_pos hj, List.getElem?_append_left (by rw [hlt]; omega),
      List.getElem?_take_of_lt hj]
  · rw [if_neg hj, List.getElem?_append_right (by rw [hlt]; omega), hlt, getElem?_drop_add]
    have h2 : i + 1 + (j - i) = j + 1 := by omega
    rw [h2]

/-- Every entry of a `takeWhile` satisfies the predicate. -/
theorem takeWhile_pred_of_getElem {α : Type} (p : α → Bool) : ∀ (xs : List α) (k : Nat)
    (r : α), (xs.takeWhile p)[k]? = some r → p r = true
  | [], k, r => by simp
  | x :: xs, k, r => by
    by_cases hx : p x
    · rw [List.takeWhile_cons, if_pos hx]
      cases k with
      | zero =>
        intro h
        have hxr : x = r := by simpa using h
        rwa [← hxr]
      | succ k' => exact fun h => takeWhile_pred_of_getElem p xs k' r (by simpa using h)
    · rw [List.takeWhile_cons, if_neg hx]; simp

/-- A `takeWhile` is an initial segment: indexing below its length reads
the original list. -/
theorem getElem?_takeWhile_of_lt {α : Type} (p : α → Bool) (xs : List α) (k : Nat)
    (hk : k < (xs.takeWhile p).length) : (xs.takeWhile p)[k]? = xs[k]? := by
  conv_rhs => rw [← List.takeWhile_append_dropWhile p xs]
  rw [List.getElem?_append_left hk]

/-- `map` commutes with `eraseIdx`. -/
theorem map_eraseIdx {α β : Type} (g : α → β) : ∀ (l : List α) (i : Nat),
    (l.eraseIdx i).map g = (l.map g).eraseIdx i
  | [], _ => rfl
  | x :: xs, 0 => rfl
  | x :: xs, i + 1 => by
    simp only [List.eraseIdx_cons_succ, List.map_cons]
    rw [map_eraseIdx g xs i]

/-- Head bound of a `levChain`. -/
theorem levChain_head_getElem : ∀ (T : List Nat) (p a : Nat), levChain p T = true →
    T[0]? = some a → a ≤ p + 1
  | [], _, _, _ => by simp
  | t :: ts, p, a, h => by
    intro ha
    have hta : t = a := by simpa using ha
    subst hta
    simp only [levChain, Bool.and_eq_true, decide_eq_true_eq] at h
    exact h.1

/-- Chain extraction: consecutive entries of a `levChain` list rise by
at most one. -/
theorem levChain_getElem : ∀ (T : List Nat) (p : Nat), levChain p T = true →
    ∀ (j a b : Nat), T[j]? = some a → T[j + 1]? = some b → b ≤ a + 1
  | [], _, _, j, a, b => by simp
  | t :: ts, p, h, 0, a, b => by
    intro ha hb
    have ht : levChain t ts = true := by
      simp only [levChain, Bool.and_eq_true, decide_eq_true_eq] at h
      exact h.2
    have hta : t = a := by simpa using ha
    subst hta
    exact levChain_head_getElem ts t b ht (by simpa using hb)
  | t :: ts, p, h, j + 1, a, b => by
    intro ha hb
    have ht : levChain t ts = true := by
      simp only [levChain, Bool.and_eq_true, decide_eq_true_eq] at h
      exact h.2
    exact levChain_getElem ts t ht j a b (by simpa using ha) (by simpa using hb)

/-- Adjacent-entry bound extracted from the full level invariant. -/
theorem levelInv_adjacent (L : List Nat) (h : levelInv L = true) (j a b : Nat)
    (ha : L[j]? = some a) (hb : L[j + 1]? = some b) : b ≤ a + 1 := by
  cases L with
  | nil => simp at ha
  | cons l rest =>
    have hch : levChain l rest = true := by
      simp only [levelInv, Bool.and_eq_true] at h
      exact h.2
    cases j with
    | zero =>
      have hla : l = a := by simpa using ha
      subst hla
      exact levChain_head_getElem rest l b hch (by simpa using hb)
    | succ j' =>
      exact levChain_getElem rest l hch j' a b (by simpa using ha) (by simpa using hb)

/-- Rows at or before the cascading row are untouched by the cascade. -/
theorem cascadeOptional_frame_le (ls : List Row) (idx : Nat) (s : Bool) (j : Nat)
    (hj : j ≤ idx) : (cascadeOptional ls idx s)[j]? = ls[j]? := by
  unfold cascadeOptional
  by_cases hlen : j < ls.length
  · rw [List.getElem?_append_left (by rw [List.length_take]; omega),
      List.getElem?_take_of_lt (by omega)]
  · have hlen' : ls.length ≤ j := by omega
    have hd : ls.drop (idx + 1) = [] := List.drop_eq_nil_iff.mpr (by omega)
    rw [hd, show cascadeAux s (lvl ls idx) [] = [] from rfl, List.append_nil]
    rw [List.getElem?_eq_none (show (ls.take (idx + 1)).length ≤ j by
      rw [List.length_take]
      omega)]
    rw [List.getElem?_eq_none hlen']

/-- `setChecked` at the toggled index, through `getElem?`. -/
theorem setCheckedSig_getElem_self (ls : List Row) (idx : Nat) (v : Bool) :
    (setCheckedSig ls idx v)[idx]? =
      (ls[idx]?).map (fun r => { r with optChecked := v }) := by
  unfold setCheckedSig
  by_cases h : optC ls idx = v
  · rw [if_pos h]
    cases hg : ls[idx]? with
    | none => simp
    | some r =>
      have hr : r.optChecked = v := by
        simp [optC, hg] at h
        exact h
      cases r
      simp_all
  · rw [if_neg h,
      cascadeOptional_frame_le (setOptChecked ls idx v) idx v idx (Nat.le_refl idx)]
    unfold setOptChecked
    exact getElem?_modifyAt_self _ idx ls

/-- Net effect of toggling the optional checkbox off at a checked row:
the row's checkbox is cleared and the contiguous run of strictly deeper
rows after it is forced unchecked and re-enabled. -/
theorem setCheckedSig_uncheck_eq (ls : List Row) (idx : Nat) (h : optC ls idx = true) :
    setCheckedSig ls idx false =
      (setOptChecked ls idx false).take (idx + 1) ++
        (((ls.drop (idx + 1)).takeWhile (fun r => decide (lvl ls idx < r.level))).map
            (fun r => { r with optChecked := false, optEnabled := true }) ++
          (ls.drop (idx + 1)).dropWhile (fun r => decide (lvl ls idx < r.level))) := by
  have hne : ¬ (optC ls idx = false) := by simp [h]
  have hlev : levels (setOptChecked ls idx false) = levels ls := by
    unfold setOptChecked levels
    exact modifyAt_map_eq (fun r => r.level)
      (fun r => { r with optChecked := false }) (fun r => rfl) idx ls
  have hlvl : lvl (setOptChecked ls idx false) idx = lvl ls idx := by
    rw [lvl_eq_levels, hlev, ← lvl_eq_levels]
  have hdrop : (setOptChecked ls idx false).drop (idx + 1) = ls.drop (idx + 1) := by
    unfold setOptChecked
    exact drop_succ_modifyAt _ idx ls
  unfold setCheckedSig
  rw [if_neg hne]
  unfold cascadeOptional
  rw [hlvl, hdrop, cascadeAux_eq]
  simp only [Bool.not_false]

/-! ## `_remove`: frame and loop-decomposition lemmas -/

/-- `setChecked` touches only the toggled row and rows after it. -/
theorem setCheckedSig_frame_lt (ls : List Row) (idx : Nat) (v : Bool) (j : Nat)
    (hj : j < idx) : (setCheckedSig ls idx v)[j]? = ls[j]? := by
  unfold setCheckedSig
  by_cases h : optC ls idx = v
  · rw [if_pos h]
  · rw [if_neg h,
      cascadeOptional_frame_le (setOptChecked ls idx v) idx v j (by omega)]
    unfold setOptChecked
    exact getElem?_modifyAt_ne _ idx j ls (by omega)

/-- `_sync_optional_with_parent` touches only its row and rows after it. -/
theorem syncOptionalWithParent_frame_lt (ls : List Row) (idx : Nat) (j : Nat)
    (hj : j < idx) : (syncOptionalWithParent ls idx)[j]? = ls[j]? := by
  unfold syncOptionalWithParent
  cases findParent ls (lvl ls idx) idx with
  | none =>
    unfold setOptEnabled
    exact getElem?_modifyAt_ne _ idx j ls (by omega)
  | some p =>
    by_cases h : optC ls p
    · simp only [h, if_true]
      unfold setOptEnabled
      rw [getElem?_modifyAt_ne _ idx j _ (by omega)]
      exact setCheckedSig_frame_lt ls idx true j hj
    · simp only [h, Bool.false_eq_true, if_false]
      unfold setOptEnabled
      exact getElem?_modifyAt_ne _ idx j ls (by omega)

/-- One `_remove` descendant step touches only positions at or after its
own index. -/
theorem remStep_frame_lt (ls : List Row) (i l j : Nat) (hj : j < i) :
    (remStep ls i l)[j]? = ls[j]? := by
  unfold remStep
  rw [syncOptionalWithParent_frame_lt _ i j hj]
  unfold setOptEnabled setLevel
  rw [getElem?_modifyAt_ne _ i j _ (by omega), getElem?_modifyAt_ne _ i j ls (by omega)]

/-- The `_remove` descendant loop touches only positions at or after its
starting index. -/
theorem remLoop_frame_lt : ∀ (rs : List Row) (ls : List Row) (s j : Nat), j < s →
    (remLoop (enumLevelsFrom s rs) ls)[j]? = ls[j]?
  | [], ls, s, j, _ => rfl
  | r :: rs', ls, s, j, hj => by
    show (remLoop (enumLevelsFrom (s + 1) rs') (remStep ls s r.level))[j]? = ls[j]?
    rw [remLoop_frame_lt rs' (remStep ls s r.level) (s + 1) j (by omega)]
    exact remStep_frame_lt ls s r.level j hj

/-- `enumLevelsFrom` over an append. -/
theorem enumLevelsFrom_append : ∀ (as bs : List Row) (s : Nat),
    enumLevelsFrom s (as ++ bs) = enumLevelsFrom s as ++ enumLevelsFrom (s + as.length) bs
  | [], bs, s => by simp [enumLevelsFrom]
  | a :: as', bs, s => by
    simp only [List.cons_append, enumLevelsFrom, List.length_cons, List.append_eq]
    rw [enumLevelsFrom_append as' bs (s + 1)]
    have h : s + 1 + as'.length = s + (as'.length + 1) := by omega
    rw [h]

/-- `remLoop` over an append of step lists. -/
theorem remLoop_append : ∀ (ps qs : List (Nat × Nat)) (ls : List Row),
    remLoop (ps ++ qs) ls = remLoop qs (remLoop ps ls)
  | [], qs, ls => rfl
  | (i, l) :: ps', qs, ls => by
    simp only [List.cons_append, remLoop]
    exact remLoop_append ps' qs (remStep ls i l)

/-- A `_remove` descendant step changes no text. -/
theorem texts_remStep (ls : List Row) (i l : Nat) : texts (remStep ls i l) = texts ls := by
  unfold remStep texts
  rw [syncOptionalWithParent_map_eq _ boxBlind_text _ i,
    setOptEnabled_map_eq _ boxBlind_text _ i true]
  unfold setLevel
  exact modifyAt_map_eq (fun r => r.text) (fun r => { r with level := l - 1 })
    (fun r => rfl) i ls

/-- The `_remove` descendant loop changes no text. -/
theorem texts_remLoop : ∀ (ps : List (Nat × Nat)) (ls : List Row),
    texts (remLoop ps ls) = texts ls
  | [], _ => rfl
  | (i, l) :: ps', ls => by
    rw [show remLoop ((i, l) :: ps') ls = remLoop ps' (remStep ls i l) from rfl,
      texts_remLoop ps' (remStep ls i l), texts_remStep]

/-- A `_remove` descendant step changes no item-data `optional` entry. -/
theorem optDatas_remStep (ls : List Row) (i l : Nat) :
    optDatas (remStep ls i l) = optDatas ls := by
  unfold remStep optDatas
  rw [syncOptionalWithParent_map_eq _ boxBlind_optData _ i,
    setOptEnabled_map_eq _ boxBlind_optData _ i true]
  unfold setLevel
  exact modifyAt_map_eq (fun r => r.optData) (fun r => { r with level := l - 1 })
    (fun r => rfl) i ls

/-- The `_remove` descendant loop changes no item-data `optional` entry. -/
theorem optDatas_remLoop : ∀ (ps : List (Nat × Nat)) (ls : List Row),
    optDatas (remLoop ps ls) = optDatas ls
  | [], _ => rfl
  | (i, l) :: ps', ls => by
    rw [show remLoop ((i, l) :: ps') ls = remLoop ps' (remStep ls i l) from rfl,
      optDatas_remLoop ps' (remStep ls i l), optDatas_remStep]

/-- The `_remove` descendant loop preserves the row count. -/
theorem length_remLoop (ps : List (Nat × Nat)) (ls : List Row) :
    (remLoop ps ls).length = ls.length := by
  have h := congrArg List.length (texts_remLoop ps ls)
  simpa [texts] using h

/-- `findParent` only inspects levels below its starting index. -/
theorem findParent_congr (ls1 ls2 : List Row) (v : Nat) : ∀ (n : Nat),
    (∀ j, j < n → lvl ls1 j = lvl ls2 j) → findParent ls1 v n = findParent ls2 v n
  | 0, _ => rfl
  | n + 1, h => by
    unfold findParent
    rw [h n (by omega)]
    by_cases hc : lvl ls2 n < v
    · rw [if_pos hc, if_pos hc]
    · rw [if_neg hc, if_neg hc]
      exact findParent_congr ls1 ls2 v n (fun j hj => h j (by omega))

/-- A found parent lies strictly below the starting index. -/
theorem findParent_lt_start : ∀ (ls : List Row) (v n q : Nat),
    findParent ls v n = some q → q < n
  | ls, v, 0, q => by simp [findParent]
  | ls, v, n + 1, q => by
    unfold findParent
    by_cases hc : lvl ls n < v
    · rw [if_pos hc]
      intro h
      have hq : n = q := by simpa using h
      omega
    · rw [if_neg hc]
      intro h
      have := findParent_lt_start ls v n q h
      omega

/-- A found parent's level is below the searched level. -/
theorem findParent_some_pred : ∀ (ls : List Row) (v n q : Nat),
    findParent ls v n = some q → lvl ls q < v
  | ls, v, 0, q => by simp [findParent]
  | ls, v, n + 1, q => by
    unfold findParent
    by_cases hc : lvl ls n < v
    · rw [if_pos hc]
      intro h
      have hq : n = q := by simpa using h
      rwa [← hq]
    · rw [if_neg hc]
      exact findParent_some_pred ls v n q

/-- The backward search never skips past a satisfying position. -/
theorem findParent_mono : ∀ (ls : List Row) (v t n q : Nat), t < n → lvl ls t < v →
    findParent ls v n = some q → t ≤ q
  | ls, v, t, 0, q => by omega
  | ls, v, t, n + 1, q => by
    intro ht hlt
    unfold findParent
    by_cases hc : lvl ls n < v
    · rw [if_pos hc]
      intro h
      have hq : n = q := by simpa using h
      omega
    · rw [if_neg hc]
      intro h
      have htn : t ≠ n := by
        intro he
        rw [he] at hlt
        exact hc hlt
      exact findParent_mono ls v t n q (by omega) hlt h

/-- `levels` through `getElem?` at an in-range index. -/
theorem levels_getElem_of_lt (ls : List Row) (j : Nat) (hj : j < ls.length) :
    (levels ls)[j]? = some (lvl ls j) := by
  cases hg : ls[j]? with
  | none =>
    rw [List.getElem?_eq_none_iff] at hg
    omega
  | some r =>
    unfold levels lvl
    rw [List.getElem?_map, hg]
    rfl

/-- `setLevel` at its own index, through `getElem?`. -/
theorem setLevel_getElem_self (ls : List Row) (i lv : Nat) :
    (setLevel ls i lv)[i]? = (ls[i]?).map (fun r => { r with level := lv }) := by
  unfold setLevel
  exact getElem?_modifyAt_self _ i ls

/-- `setEnabled` at its own index, through `getElem?`. -/
theorem setOptEnabled_getElem_self (ls : List Row) (i : Nat) (v : Bool) :
    (setOptEnabled ls i v)[i]? = (ls[i]?).map (fun r => { r with optEnabled := v }) := by
  unfold setOptEnabled
  exact getElem?_modifyAt_self _ i ls

/-- The row a `_remove` descendant step leaves at its own position: the
level is decremented and the checkbox is locked (checked + disabled) or
re-enabled according to the parent found at step time. -/
theorem remStep_self (ls : List Row) (i l : Nat) (hi : i < ls.length) :
    (remStep ls i l)[i]? = (ls[i]?).map (fun r =>
      match findParent ls (l - 1) i with
      | some q =>
        if optC ls q then { r with level := l - 1, optChecked := true, optEnabled := false }
        else { r with level := l - 1, optEnabled := true }
      | none => { r with level := l - 1, optEnabled := true }) := by
  cases hg : ls[i]? with
  | none =>
    rw [List.getElem?_eq_none_iff] at hg
    omega
  | some r =>
    have h1 : (setLevel ls i (l - 1))[i]? = some { r with level := l - 1 } := by
      rw [setLevel_getElem_self, hg]
      rfl
    have h2 : (setOptEnabled (setLevel ls i (l - 1)) i true)[i]? =
        some { r with level := l - 1, optEnabled := true } := by
      rw [setOptEnabled_getElem_self, h1]
      rfl
    have hjq : ∀ j, j < i → (setOptEnabled (setLevel ls i (l - 1)) i true)[j]? = ls[j]? := by
      intro j hj
      unfold setOptEnabled setLevel
      rw [getElem?_modifyAt_ne _ i j _ (by omega), getElem?_modifyAt_ne _ i j ls (by omega)]
    have hlvl2 : lvl (setOptEnabled (setLevel ls i (l - 1)) i true) i = l - 1 := by
      unfold lvl
      rw [h2]
      rfl
    have hlevbelow : ∀ j, j < i →
        lvl (setOptEnabled (setLevel ls i (l - 1)) i true) j = lvl ls j := by
      intro j hj
      unfold lvl
      rw [hjq j hj]
    have hfp : findParent (setOptEnabled (setLevel ls i (l - 1)) i true)
        (lvl (setOptEnabled (setLevel ls i (l - 1)) i true) i) i =
        findParent ls (l - 1) i := by
      rw [hlvl2]
      exact findParent_congr _ ls (l - 1) i hlevbelow
    unfold remStep syncOptionalWithParent
    rw [hfp]
    cases hfpv : findParent ls (l - 1) i with
    | none =>
      rw [setOptEnabled_getElem_self, h2]
      rfl
    | some q =>
      have hqlt : q < i := findParent_lt_start ls (l - 1) i q hfpv
      have hoptc : optC (setOptEnabled (setLevel ls i (l - 1)) i true) q = optC ls q := by
        unfold optC
        rw [hjq q hqlt]
      by_cases hoc : optC ls q
      · simp only [hoptc, hoc, eq_self_iff_true, if_true]
        rw [setOptEnabled_getElem_self, setCheckedSig_getElem_self, h2]
        rfl
      · simp only [hoptc, hoc, Bool.false_eq_true, if_false]
        rw [setOptEnabled_getElem_self, h2]
        rfl

/-- Levels after the first `m` steps of the `_remove` descendant loop:
processed positions are decremented, everything else is untouched. -/
theorem lvl_remLoop_partial (ls : List Row) (idx m : Nat) (hidx : idx < ls.length)
    (hm : m ≤ ((ls.drop (idx + 1)).takeWhile (fun r => decide (lvl ls idx < r.level))).length)
    (j : Nat) :
    lvl (remLoop (enumLevelsFrom (idx + 1)
        (((ls.drop (idx + 1)).takeWhile (fun r => decide (lvl ls idx < r.level))).take m)) ls) j =
      if j < idx + 1 then lvl ls j
      else if j < idx + 1 + m then lvl ls j - 1
      else lvl ls j := by
  set p : Row → Bool := fun r => decide (lvl ls idx < r.level) with hp
  set xs := ls.drop (idx + 1) with hxs
  set run := xs.takeWhile p with hrundef
  have hxlen : xs.length = ls.length - (idx + 1) := by
    rw [hxs]
    simp
  have hrle : run.length ≤ xs.length := by
    have hsub : List.Sublist run xs := by
      rw [hrundef]
      exact List.takeWhile_sublist p
    exact hsub.length_le
  have hrtm : (run.take m).length = m := by
    rw [List.length_take]
    omega
  have hll : (levels ls).length = ls.length := by
    simp [levels]
  have hlv : levels (remLoop (enumLevelsFrom (idx + 1) (run.take m)) ls) =
      (levels ls).take (idx + 1) ++ (run.take m).map (fun r => r.level - 1) ++
        (levels ls).drop (idx + 1 + (run.take m).length) :=
    levels_remLoop (run.take m) ls (idx + 1) (by rw [hrtm]; omega)
  rw [lvl_eq_levels, hlv, hrtm]
  have hlt1 : ((levels ls).take (idx + 1)).length = idx + 1 := by
    rw [List.length_take, hll]
    omega
  by_cases hj1 : j < idx + 1
  · rw [if_pos hj1,
      List.getElem?_append_left (by
        rw [List.length_append, hlt1, List.length_map, hrtm]
        omega),
      List.getElem?_append_left (by rw [hlt1]; omega),
      List.getElem?_take_of_lt hj1, ← lvl_eq_levels]
  · by_cases hj2 : j < idx + 1 + m
    · rw [if_neg hj1, if_pos hj2]
      have hkm : j - (idx + 1) < m := by omega
      have hkrun : j - (idx + 1) < run.length := by omega
      have hjlen : j < ls.length := by omega
      rw [List.getElem?_append_left (by
          rw [List.length_append, hlt1, List.length_map, hrtm]
          omega),
        List.getElem?_append_right (by rw [hlt1]; omega), hlt1,
        List.getElem?_map, List.getElem?_take_of_lt hkm, hrundef,
        getElem?_takeWhile_of_lt p xs (j - (idx + 1)) hkrun, hxs, getElem?_drop_add]
      have hje : idx + 1 + (j - (idx + 1)) = j := by omega
      rw [hje]
      cases hg : ls[j]? with
      | none =>
        rw [List.getElem?_eq_none_iff] at hg
        omega
      | some r => simp [lvl, hg]
    · rw [if_neg hj1, if_neg hj2]
      rw [List.getElem?_append_right (by
        rw [List.length_append, hlt1, List.length_map, hrtm]
        omega)]
      rw [List.length_append, hlt1, List.length_map, hrtm, getElem?_drop_add]
      have hje : idx + 1 + m + (j - (idx + 1 + m)) = j := by omega
      rw [hje, ← lvl_eq_levels]

/-- Below the erased index, `findParent` is unchanged by the erasure. -/
theorem findParent_eraseIdx_congr (pre : List Row) (idx v : Nat) (hplen : idx < pre.length)
    (n : Nat) (hn : n ≤ idx) :
    findParent (pre.eraseIdx idx) v n = findParent pre v n := by
  apply findParent_congr
  intro j hj
  unfold lvl
  rw [getElem?_eraseIdx_split pre idx j hplen, if_pos (by omega)]

/-- When the search level does not beat the erased row's level, the
backward parent search after erasure mirrors the original search, with
positions above the erased one shifted down by one. -/
theorem findParent_eraseIdx_low (pre : List Row) (idx v : Nat) (hplen : idx < pre.length)
    (hno : ¬ (lvl pre idx < v)) : ∀ (m : Nat),
    findParent (pre.eraseIdx idx) v (idx + m) =
      (findParent pre v (idx + 1 + m)).map (fun q => if idx < q then q - 1 else q)
  | 0 => by
    show findParent (pre.eraseIdx idx) v idx =
      (findParent pre v (idx + 1)).map (fun q => if idx < q then q - 1 else q)
    have h1 : findParent pre v (idx + 1) = findParent pre v idx := by
      show (if lvl pre idx < v then some idx else findParent pre v idx) = findParent pre v idx
      rw [if_neg hno]
    rw [h1, findParent_eraseIdx_congr pre idx v hplen idx (le_refl idx)]
    cases hq : findParent pre v idx with
    | none => rfl
    | some q =>
      have hlt := findParent_lt_start pre v idx q hq
      show some q = some (if idx < q then q - 1 else q)
      rw [if_neg (by omega)]
  | m + 1 => by
    show findParent (pre.eraseIdx idx) v (idx + m + 1) =
      (findParent pre v (idx + 1 + m + 1)).map (fun q => if idx < q then q - 1 else q)
    have hlv : lvl (pre.eraseIdx idx) (idx + m) = lvl pre (idx + 1 + m) := by
      unfold lvl
      rw [getElem?_eraseIdx_split pre idx (idx + m) hplen, if_neg (by omega)]
      have he : idx + m + 1 = idx + 1 + m := by omega
      rw [he]
    unfold findParent
    rw [hlv]
    by_cases hc : lvl pre (idx + 1 + m) < v
    · rw [if_pos hc, if_pos hc]
      show some (idx + m) = some (if idx < idx + 1 + m then idx + 1 + m - 1 else idx + 1 + m)
      rw [if_pos (by omega)]
      congr 1
      omega
    · rw [if_neg hc, if_neg hc]
      exact findParent_eraseIdx_low pre idx v hplen hno m

/-- When the position right after the erased row already satisfies the
search, the backward search after erasure mirrors the original search,
shifted down by one. -/
theorem findParent_eraseIdx_high (pre : List Row) (idx v : Nat) (hplen : idx < pre.length)
    (hstop : lvl pre (idx + 1) < v) : ∀ (m : Nat),
    findParent (pre.eraseIdx idx) v (idx + 1 + m) =
      (findParent pre v (idx + 1 + m + 1)).map (fun q => if idx < q then q - 1 else q)
  | 0 => by
    show findParent (pre.eraseIdx idx) v (idx + 1) =
      (findParent pre v (idx + 1 + 1)).map (fun q => if idx < q then q - 1 else q)
    have hlv : lvl (pre.eraseIdx idx) idx = lvl pre (idx + 1) := by
      unfold lvl
      rw [getElem?_eraseIdx_split pre idx idx hplen, if_neg (by omega)]
    unfold findParent
    rw [hlv, if_pos hstop, if_pos hstop]
    show some idx = some (if idx < idx + 1 then idx + 1 - 1 else idx + 1)
    rw [if_pos (by omega)]
    simp
  | m + 1 => by
    show findParent (pre.eraseIdx idx) v (idx + 1 + m + 1) =
      (findParent pre v (idx + 1 + m + 1 + 1)).map (fun q => if idx < q then q - 1 else q)
    have hlv : lvl (pre.eraseIdx idx) (idx + 1 + m) = lvl pre (idx + 1 + m + 1) := by
      unfold lvl
      rw [getElem?_eraseIdx_split pre idx (idx + 1 + m) hplen, if_neg (by omega)]
    unfold findParent
    rw [hlv]
    by_cases hc : lvl pre (idx + 1 + m + 1) < v
    · rw [if_pos hc, if_pos hc]
      show some (idx + 1 + m) = some (if idx < idx + 1 + m + 1
        then idx + 1 + m + 1 - 1 else idx + 1 + m + 1)
      rw [if_pos (by omega)]
      simp
    · rw [if_neg hc, if_neg hc]
      exact findParent_eraseIdx_high pre idx v hplen hstop m

/-- `runOf` unfolded. -/
theorem runOf_eq (ls : List Row) (idx : Nat) :
    runOf ls idx = (ls.drop (idx + 1)).takeWhile (fun r => decide (lvl ls idx < r.level)) :=
  rfl

/-- The pairs `_remove` collects are exactly the indexed descendant run. -/
theorem descPairs_eq (ls : List Row) (idx : Nat) :
    descPairs ls idx = enumLevelsFrom (idx + 1) (runOf ls idx) :=
  rfl

/-! ## Claim theorems -/

/-- **C1.** Every row list satisfying the level invariants (first row at
level 0, no row more than one level deeper than its predecessor) still
satisfies them after any sequence of insert-after, remove and reindent
(`↖`/`↘`, i.e. `_indent(±1)`) operations. -/
theorem claim_C1 (ls : List Row) (ops : List EditOp)
    (hinv : levelInv (levels ls) = true) :
    levelInv (levels (applyOps ls ops)) = true := by
  induction ops generalizing ls with
  | nil => exact hinv
  | cons op ops ih => exact ih (applyOp ls op) (levelInv_applyOp ls op hinv)

/-- Witness for `claim_C1`: the concrete two-row stage `exC2` run
through the edit sequence `exOps`. -/
theorem claim_C1_witness :
    levelInv (levels exC2) = true ∧ levelInv (levels (applyOps exC2 exOps)) = true :=
  ⟨by decide, claim_C1 exC2 exOps (by decide)⟩

/-- **C2** is refuted at a concrete input: on the stage `exC2`
(`A` at level 0, optional checked `B` at level 1), `indent(+1)` of `B`
fails validation (level 2 would exceed `A`'s level + 1) yet the call
mutates the tree: the pre-validation block clears `B`'s optional
checkbox before the validation runs. -/
theorem claim_C2_counterexample :
    indentValid exC2 1 1 = false ∧ indentItem exC2 1 1 ≠ exC2 := by decide

/-- **C2 amended.** A reindent call that fails validation changes no
row's level, text, or item-data optional entry, and the row count stays
the same — but the live checkbox state (checked/enabled) of the target
row and, through its cascade, of its descendants may still be mutated
by the pre-validation sync, as the counterexample shows. -/
theorem claim_C2_amended (ls : List Row) (idx : Nat) (delta : Int)
    (hinvalid : indentValid ls idx delta = false) :
    levels (indentItem ls idx delta) = levels ls ∧
    texts (indentItem ls idx delta) = texts ls ∧
    optDatas (indentItem ls idx delta) = optDatas ls ∧
    (indentItem ls idx delta).length = ls.length := by
  have heq := indentItem_invalid ls idx delta hinvalid
  have hnz : ((lvl ls idx : Int) + delta) ≠ 0 := by
    intro h0
    have : indentValid ls idx delta = true := by
      simp only [indentValid, Bool.and_eq_true, Bool.or_eq_true, decide_eq_true_eq]
      refine ⟨⟨by omega, Or.inr h0⟩, by omega⟩
    rw [this] at hinvalid
    exact absurd hinvalid (by simp)
  have hlev : levels (indentItem ls idx delta) = levels ls := by
    rw [heq, levels_indentPresync]
  refine ⟨hlev, texts_indentItem ls idx delta, ?_, ?_⟩
  · rw [heq, optDatas_indentPresync_ne ls idx _ hnz]
  · have := congrArg List.length hlev
    simpa [levels] using this

/-- Witness for `claim_C2_amended` at the counterexample input. -/
theorem claim_C2_amended_witness :
    indentValid exC2 1 1 = false ∧
    (levels (indentItem exC2 1 1) = levels exC2 ∧
      texts (indentItem exC2 1 1) = texts exC2 ∧
      optDatas (indentItem exC2 1 1) = optDatas exC2 ∧
      (indentItem exC2 1 1).length = exC2.length) :=
  ⟨by decide, claim_C2_amended exC2 1 1 (by decide)⟩

/-- **C3.** For every runtime tree satisfying the optional-cascade
invariant and every assignment of check states, the stage is reported
complete (the `下一阶段` button is enabled by `_update_next_btn`) iff
every non-optional node is checked; flipping the check state of any
optional node never changes the verdict (optional items never block);
and unchecking any single non-optional node makes the stage not
complete. -/
theorem claim_C3 (f : QForest) (_hc : cascadeInvF f = true) :
    ((updateNextBtn f).2 = requiredF f) ∧
    (∀ p n v, getPath p f = some n → n.optional = true →
      (updateNextBtn (setCheckedAt f p v)).2 = (updateNextBtn f).2) ∧
    (∀ p n, getPath p f = some n → n.optional = false →
      (updateNextBtn (setCheckedAt f p false)).2 = false) := by
  refine ⟨checkF_snd none f, ?_, ?_⟩
  · intro p n v hp ho
    show (checkF none _).2 = (checkF none f).2
    rw [checkF_snd, checkF_snd, requiredF_toggle_optional p f n v hp ho]
  · intro p n hp ho
    show (checkF none _).2 = false
    rw [checkF_snd, requiredF_uncheck_required p f n hp ho]

/-- Witness for `claim_C3` on the concrete tree `exC3` (required `A`
checked, optional child `B` unchecked), toggling `B` and unchecking
`A`. -/
theorem claim_C3_witness :
    cascadeInvF exC3 = true ∧
    ((updateNextBtn exC3).2 = requiredF exC3 ∧
      (updateNextBtn (setCheckedAt exC3 [0, 0] true)).2 = (updateNextBtn exC3).2 ∧
      (updateNextBtn (setCheckedAt exC3 [0] false)).2 = false) :=
  ⟨by decide,
    (claim_C3 exC3 (by decide)).1,
    (claim_C3 exC3 (by decide)).2.1 [0, 0] (.mk "B" true false true .nil) true rfl rfl,
    (claim_C3 exC3 (by decide)).2.2 [0] (.mk "A" false true true
      (.cons (.mk "B" true false true .nil) .nil)) rfl rfl⟩

/-- **C4** (code defect, evaluated at the failing input): the pre-event
state `exC4` satisfies the editor cascade invariant, yet after the user
checks root `X` and `_on_item_changed` plus `_update_next_btn` run to
completion, node `D` is still checked below the unchecked optional
nodes `O` and `B` (`lockViolF`), and no node of the tree is excluded
from user checking (`anyLockedF` is false): the claimed auto-correction
and lock do not hold.  (`check_node` visits children before parents, and
the build-time `lock_children_if_parent_optional` pass of `_build_tree`
is defined but never invoked.) -/
theorem claim_C4_code_bug :
    cascadeInvF exC4 = true ∧
    lockViolF (processCheckEvent exC4 [1] true) = true ∧
    anyLockedF (processCheckEvent exC4 [1] true) = false := by decide

/-- **C5** is refuted at a concrete input: on the stage `exC5`
(optional-checked `A` at level 0, optional-checked locked `B` at level
1, `B` having no optional ancestor closer than `A` itself), unchecking
`A`'s optional checkbox does make `B` editable again, but it also forces
`B`'s optional checkbox to `false` instead of retaining its previous
value `true` — `_cascade_optional` writes `state` to every descendant's
checkbox unconditionally. -/
theorem claim_C5_counterexample :
    optC exC5 1 = true ∧ optD exC5 1 = true ∧
    optC (setCheckedSig exC5 0 false) 1 = false ∧
    optE (setCheckedSig exC5 0 false) 1 = true := by decide

/-- **C5 amended.** Unchecking the optional checkbox of a checked row
leaves the row count and every row before the toggled one unchanged,
clears the toggled row's own checkbox, and forces every row of the
contiguous strictly-deeper run after it to *unchecked* (not its previous
optional value) while re-enabling it; rows after the run are
untouched. -/
theorem claim_C5_amended (ls : List Row) (idx : Nat) (h : optC ls idx = true) :
    (setCheckedSig ls idx false).length = ls.length ∧
    (∀ j, j < idx → (setCheckedSig ls idx false)[j]? = ls[j]?) ∧
    (setCheckedSig ls idx false)[idx]? =
      (ls[idx]?).map (fun r => { r with optChecked := false }) ∧
    (∀ k, k < ((ls.drop (idx + 1)).takeWhile
        (fun r => decide (lvl ls idx < r.level))).length →
      (setCheckedSig ls idx false)[idx + 1 + k]? =
        (ls[idx + 1 + k]?).map (fun r => { r with optChecked := false, optEnabled := true })) ∧
    (∀ j, idx + 1 + ((ls.drop (idx + 1)).takeWhile
        (fun r => decide (lvl ls idx < r.level))).length ≤ j →
      (setCheckedSig ls idx false)[j]? = ls[j]?) := by
  have hidx : idx < ls.length := by
    by_contra hge
    push_neg at hge
    have hnone : ls[idx]? = none := List.getElem?_eq_none hge
    simp [optC, hnone] at h
  have heq := setCheckedSig_uncheck_eq ls idx h
  have hlen1 : (setOptChecked ls idx false).length = ls.length := by
    unfold setOptChecked
    exact length_modifyAt _ idx ls
  have hlentake : ((setOptChecked ls idx false).take (idx + 1)).length = idx + 1 := by
    rw [List.length_take, hlen1]
    omega
  set p : Row → Bool := fun r => decide (lvl ls idx < r.level) with hp
  set xs := ls.drop (idx + 1) with hxs
  set run := xs.takeWhile p with hrun
  have hsplit : run ++ xs.dropWhile p = xs := List.takeWhile_append_dropWhile p xs
  have hlsum : run.length + (xs.dropWhile p).length = xs.length := by
    have hc := congrArg List.length hsplit
    simpa using hc
  have hxlen : xs.length = ls.length - (idx + 1) := by
    rw [hxs]
    simp
  refine ⟨?_, ?_, ?_, ?_, ?_⟩
  · rw [heq]
    simp only [List.length_append, List.length_map, hlentake]
    omega
  · intro j hj
    rw [heq, List.getElem?_append_left (by rw [hlentake]; omega),
      List.getElem?_take_of_lt (by omega)]
    unfold setOptChecked
    exact getElem?_modifyAt_ne _ idx j ls (by omega)
  · exact setCheckedSig_getElem_self ls idx false
  · intro k hk
    have hidxk : run[k]? = ls[idx + 1 + k]? := by
      rw [hrun, getElem?_takeWhile_of_lt p xs k hk, hxs, getElem?_drop_add]
    rw [heq, List.getElem?_append_right (by rw [hlentake]; omega), hlentake]
    have hk2 : idx + 1 + k - (idx + 1) = k := by omega
    rw [hk2, List.getElem?_append_left (by rw [List.length_map]; omega),
      List.getElem?_map, hidxk]
  · intro j hj
    rw [heq, List.getElem?_append_right (by rw [hlentake]; omega), hlentake,
      List.getElem?_append_right (by rw [List.length_map]; omega)]
    have hrest : xs.dropWhile p = xs.drop run.length := by
      rw [hrun]
      exact (drop_length_takeWhile p xs).symm
    rw [hrest, getElem?_drop_add, hxs, getElem?_drop_add]
    have hfin : idx + 1 + (run.length + (j - (idx + 1) - (run.map
        (fun r => { r with optChecked := false, optEnabled := true })).length)) = j := by
      rw [List.length_map]
      omega
    rw [hfin]

/-- Witness for `claim_C5_amended` at the counterexample stage. -/
theorem claim_C5_amended_witness :
    optC exC5 0 = true ∧
    ((setCheckedSig exC5 0 false).length = exC5.length ∧
      (∀ j, j < 0 → (setCheckedSig exC5 0 false)[j]? = exC5[j]?) ∧
      (setCheckedSig exC5 0 false)[0]? =
        (exC5[0]?).map (fun r => { r with optChecked := false }) ∧
      (∀ k, k < ((exC5.drop (0 + 1)).takeWhile
          (fun r => decide (lvl exC5 0 < r.level))).length →
        (setCheckedSig exC5 0 false)[0 + 1 + k]? =
          (exC5[0 + 1 + k]?).map
            (fun r => { r with optChecked := false, optEnabled := true })) ∧
      (∀ j, 0 + 1 + ((exC5.drop (0 + 1)).takeWhile
          (fun r => decide (lvl exC5 0 < r.level))).length ≤ j →
        (setCheckedSig exC5 0 false)[j]? = exC5[j]?)) :=
  ⟨by decide, claim_C5_amended exC5 0 (by decide)⟩

/-- **C6** is refuted at a concrete input: the one-row stage `exC6` is
reached from a fresh non-optional row by checking its optional checkbox
(which updates the live checkbox but not the item-data `optional`
entry); row `A` is then effectively optional (checkbox checked), yet
`_add_after` copies the stale item-data entry, so the inserted row is
*not* optional — neither its data entry nor its checkbox. -/
theorem claim_C6_counterexample :
    setCheckedSig [⟨"A", 0, false, false, true⟩] 0 true = exC6 ∧
    optC exC6 0 = true ∧
    optD (addAfter exC6 0) 1 = false ∧
    optC (addAfter exC6 0) 1 = false := by decide

/-- **C6 amended.** For every in-range index, `_add_after` inserts
exactly one row at position `idx + 1`: rows up to `idx` keep their
positions and contents, the rows previously after `idx` shift back by
one unchanged, and the new row has empty text, an enabled checkbox, the
claimed level (the next row's level when strictly deeper, otherwise the
current row's level), and its optional state — item data *and* checkbox
alike — copied from the *item-data* `optional` entry of row `idx`, not
from that row's live checkbox. -/
theorem claim_C6_amended (ls : List Row) (idx : Nat) (h : idx < ls.length) :
    (addAfter ls idx).length = ls.length + 1 ∧
    (∀ j, j ≤ idx → (addAfter ls idx)[j]? = ls[j]?) ∧
    (addAfter ls idx)[idx + 1]? =
      some ⟨"", if idx + 1 < ls.length && decide (lvl ls idx < lvl ls (idx + 1))
        then lvl ls (idx + 1) else lvl ls idx, optD ls idx, optD ls idx, true⟩ ∧
    (∀ j, idx < j → (addAfter ls idx)[j + 1]? = ls[j]?) := by
  have hlentake : (ls.take (idx + 1)).length = idx + 1 := by
    rw [List.length_take]
    omega
  have heq : addAfter ls idx = ls.take (idx + 1) ++
      ⟨"", if idx + 1 < ls.length && decide (lvl ls idx < lvl ls (idx + 1))
        then lvl ls (idx + 1) else lvl ls idx, optD ls idx, optD ls idx, true⟩ ::
        ls.drop (idx + 1) := rfl
  refine ⟨?_, ?_, ?_, ?_⟩
  · rw [heq]
    simp only [List.length_append, List.length_cons, List.length_drop, hlentake]
    omega
  · intro j hj
    rw [heq, List.getElem?_append_left (by rw [hlentake]; omega),
      List.getElem?_take_of_lt (by omega)]
  · rw [heq, List.getElem?_append_right (by rw [hlentake]), hlentake]
    have h0 : idx + 1 - (idx + 1) = 0 := by omega
    rw [h0, List.getElem?_cons_zero]
  · intro j hj
    rw [heq, List.getElem?_append_right (by rw [hlentake]; omega), hlentake]
    have hsucc : j + 1 - (idx + 1) = (j - (idx + 1)) + 1 := by omega
    rw [hsucc, List.getElem?_cons_succ, getElem?_drop_add]
    have hfin : idx + 1 + (j - (idx + 1)) = j := by omega
    rw [hfin]

/-- Witness for `claim_C6_amended` at the counterexample stage. -/
theorem claim_C6_amended_witness :
    0 < exC6.length ∧
    ((addAfter exC6 0).length = exC6.length + 1 ∧
      (∀ j, j ≤ 0 → (addAfter exC6 0)[j]? = exC6[j]?) ∧
      (addAfter exC6 0)[0 + 1]? =
        some ⟨"", if 0 + 1 < exC6.length && decide (lvl exC6 0 < lvl exC6 (0 + 1))
          then lvl exC6 (0 + 1) else lvl exC6 0, optD exC6 0, optD exC6 0, true⟩ ∧
      (∀ j, 0 < j → (addAfter exC6 0)[j + 1]? = exC6[j]?)) :=
  ⟨by decide, claim_C6_amended exC6 0 (by decide)⟩

/-- **C7.** `_remove` on the sole remaining row is a no-op; on a larger
stage it deletes the row at `idx`, decrements (clamping at 0) the level
of every row of the contiguous strictly-deeper run after it, leaves all
texts and item-data optional entries (apart from the deleted row's) in
place, and recomputes each run row's lock state against its parent
chain in the *resulting* list: a run row whose parent in the result has
its optional checkbox checked ends up checked and disabled, and any
other run row ends up with its checkbox enabled again. -/
theorem claim_C7 (ls : List Row) (idx : Nat) (hinv : levelInv (levels ls) = true)
    (hidx : idx < ls.length) :
    (ls.length = 1 → removeItem ls idx = ls) ∧
    (ls.length ≠ 1 →
      (removeItem ls idx).length = ls.length - 1 ∧
      levels (removeItem ls idx) =
        (levels ls).take idx ++
          ((((levels ls).drop (idx + 1)).takeWhile (fun x => decide (lvl ls idx < x))).map
              (fun x => x - 1) ++
            ((levels ls).drop (idx + 1)).dropWhile (fun x => decide (lvl ls idx < x))) ∧
      texts (removeItem ls idx) = (texts ls).eraseIdx idx ∧
      optDatas (removeItem ls idx) = (optDatas ls).eraseIdx idx ∧
      (∀ k, k < (runOf ls idx).length →
        (∀ q, findParent (removeItem ls idx)
            (lvl (removeItem ls idx) (idx + k)) (idx + k) = some q →
          (optC (removeItem ls idx) q = true →
            optC (removeItem ls idx) (idx + k) = true ∧
              optE (removeItem ls idx) (idx + k) = false) ∧
          (optC (removeItem ls idx) q = false →
            optE (removeItem ls idx) (idx + k) = true)) ∧
        (findParent (removeItem ls idx)
            (lvl (removeItem ls idx) (idx + k)) (idx + k) = none →
          optE (removeItem ls idx) (idx + k) = true))) := by
  constructor
  · intro h1
    unfold removeItem
    rw [if_pos (by simp [h1])]
  · intro hne
    have hinvne : ¬ ((ls.length == 1) = true) := by simp [hne]
    have hxlen : (ls.drop (idx + 1)).length = ls.length - (idx + 1) := by simp
    have hrle : (runOf ls idx).length ≤ (ls.drop (idx + 1)).length := by
      rw [runOf_eq]
      exact (List.takeWhile_sublist _).length_le
    have hremeq : removeItem ls idx =
        (remLoop (enumLevelsFrom (idx + 1) (runOf ls idx)) ls).eraseIdx idx := by
      unfold removeItem
      rw [if_neg hinvne, descPairs_eq]
    have hprelen : (remLoop (enumLevelsFrom (idx + 1) (runOf ls idx)) ls).length =
        ls.length := length_remLoop _ ls
    have hplen : idx < (remLoop (enumLevelsFrom (idx + 1) (runOf ls idx)) ls).length := by
      omega
    have hprechar : ∀ j, lvl (remLoop (enumLevelsFrom (idx + 1) (runOf ls idx)) ls) j =
        if j < idx + 1 then lvl ls j
        else if j < idx + 1 + (runOf ls idx).length then lvl ls j - 1
        else lvl ls j := by
      intro j
      have h := lvl_remLoop_partial ls idx
        ((ls.drop (idx + 1)).takeWhile (fun r => decide (lvl ls idx < r.level))).length
        hidx (le_refl _) j
      rw [List.take_length] at h
      rw [runOf_eq]
      exact h
    refine ⟨?_, ?_, ?_, ?_, ?_⟩
    · rw [hremeq, List.length_eraseIdx_of_lt (by omega), hprelen]
    · exact levels_removeItem ls idx hne hidx
    · rw [hremeq]
      have h1 : texts ((remLoop (enumLevelsFrom (idx + 1) (runOf ls idx)) ls).eraseIdx idx) =
          (texts (remLoop (enumLevelsFrom (idx + 1) (runOf ls idx)) ls)).eraseIdx idx := by
        unfold texts
        exact map_eraseIdx _ _ idx
      rw [h1, texts_remLoop]
    · rw [hremeq]
      have h1 : optDatas ((remLoop (enumLevelsFrom (idx + 1)
            (runOf ls idx)) ls).eraseIdx idx) =
          (optDatas (remLoop (enumLevelsFrom (idx + 1) (runOf ls idx)) ls)).eraseIdx idx := by
        unfold optDatas
        exact map_eraseIdx _ _ idx
      rw [h1, optDatas_remLoop]
    · intro k hk
      have hkx : idx + 1 + k < ls.length := by omega
      have hrk : (runOf ls idx)[k]? = ls[idx + 1 + k]? := by
        rw [runOf_eq, getElem?_takeWhile_of_lt _ _ k (by rw [← runOf_eq]; exact hk),
          getElem?_drop_add]
      cases hg : ls[idx + 1 + k]? with
      | none =>
        rw [List.getElem?_eq_none_iff] at hg
        omega
      | some rk =>
        have hlk : lvl ls (idx + 1 + k) = rk.level := by simp [lvl, hg]
        have hmin : ((runOf ls idx).take k).length = k := by
          rw [List.length_take]
          omega
        have hsplit : remLoop (enumLevelsFrom (idx + 1) (runOf ls idx)) ls =
            remLoop (enumLevelsFrom (idx + 1 + k) ((runOf ls idx).drop k))
              (remLoop (enumLevelsFrom (idx + 1) ((runOf ls idx).take k)) ls) := by
          conv_lhs => rw [← List.take_append_drop k (runOf ls idx)]
          rw [enumLevelsFrom_append, hmin, remLoop_append]
        have hdk : (runOf ls idx).drop k = rk :: (runOf ls idx).drop (k + 1) := by
          rw [List.drop_eq_getElem_cons hk]
          congr 1
          exact Option.some.inj (by rw [← List.getElem?_eq_getElem hk, hrk]; exact hg)
        have hsplit2 : remLoop (enumLevelsFrom (idx + 1) (runOf ls idx)) ls =
            remLoop (enumLevelsFrom (idx + 1 + k + 1) ((runOf ls idx).drop (k + 1)))
              (remStep (remLoop (enumLevelsFrom (idx + 1) ((runOf ls idx).take k)) ls)
                (idx + 1 + k) rk.level) := by
          rw [hsplit, hdk]
          rfl
        have hpreatk : (remLoop (enumLevelsFrom (idx + 1) (runOf ls idx)) ls)[idx + 1 + k]? =
            (remStep (remLoop (enumLevelsFrom (idx + 1) ((runOf ls idx).take k)) ls)
              (idx + 1 + k) rk.level)[idx + 1 + k]? := by
          rw [hsplit2]
          exact remLoop_frame_lt _ _ (idx + 1 + k + 1) (idx + 1 + k) (by omega)
        have hSklen : (remLoop (enumLevelsFrom (idx + 1)
            ((runOf ls idx).take k)) ls).length = ls.length := length_remLoop _ ls
        have hSkchar : ∀ j, lvl (remLoop (enumLevelsFrom (idx + 1)
            ((runOf ls idx).take k)) ls) j =
            if j < idx + 1 then lvl ls j
            else if j < idx + 1 + k then lvl ls j - 1
            else lvl ls j := by
          intro j
          have h := lvl_remLoop_partial ls idx k hidx (by rw [← runOf_eq]; omega) j
          rw [← runOf_eq] at h
          exact h
        have hstep := remStep_self
          (remLoop (enumLevelsFrom (idx + 1) ((runOf ls idx).take k)) ls)
          (idx + 1 + k) rk.level (by rw [hSklen]; omega)
        obtain ⟨s, hs⟩ : ∃ s, (remLoop (enumLevelsFrom (idx + 1)
            ((runOf ls idx).take k)) ls)[idx + 1 + k]? = some s :=
          ⟨_, List.getElem?_eq_getElem (by rw [hSklen]; omega)⟩
        have hfpcongr : findParent (remLoop (enumLevelsFrom (idx + 1)
            ((runOf ls idx).take k)) ls) (rk.level - 1) (idx + 1 + k) =
            findParent (remLoop (enumLevelsFrom (idx + 1) (runOf ls idx)) ls)
              (rk.level - 1) (idx + 1 + k) := by
          apply findParent_congr
          intro j hj
          rw [hSkchar j, hprechar j]
          by_cases h1 : j < idx + 1
          · rw [if_pos h1, if_pos h1]
          · rw [if_neg h1, if_neg h1, if_pos (by omega), if_pos (by omega)]
        have hstab : ∀ q, q < idx + 1 + k →
            (remLoop (enumLevelsFrom (idx + 1) (runOf ls idx)) ls)[q]? =
            (remLoop (enumLevelsFrom (idx + 1) ((runOf ls idx).take k)) ls)[q]? := by
          intro q hq
          rw [hsplit]
          exact remLoop_frame_lt _ _ (idx + 1 + k) q hq
        have hresatk : (removeItem ls idx)[idx + k]? =
            (remLoop (enumLevelsFrom (idx + 1) (runOf ls idx)) ls)[idx + 1 + k]? := by
          rw [hremeq, getElem?_eraseIdx_split _ idx (idx + k) hplen, if_neg (by omega)]
          have he : idx + k + 1 = idx + 1 + k := by omega
          rw [he]
        have hlvlpre : lvl (remLoop (enumLevelsFrom (idx + 1) (runOf ls idx)) ls)
            (idx + 1 + k) = rk.level - 1 := by
          rw [hprechar (idx + 1 + k), if_neg (by omega), if_pos (by omega), hlk]
        have hlvlres : lvl (removeItem ls idx) (idx + k) = rk.level - 1 := by
          unfold lvl
          rw [hresatk]
          exact hlvlpre
        have hpreidx : lvl (remLoop (enumLevelsFrom (idx + 1) (runOf ls idx)) ls) idx =
            lvl ls idx := by
          rw [hprechar idx, if_pos (by omega)]
        have hmain : findParent (removeItem ls idx) (rk.level - 1) (idx + k) =
            (findParent (remLoop (enumLevelsFrom (idx + 1) (runOf ls idx)) ls)
              (rk.level - 1) (idx + 1 + k)).map (fun q => if idx < q then q - 1 else q) ∧
            (∀ q, findParent (remLoop (enumLevelsFrom (idx + 1) (runOf ls idx)) ls)
              (rk.level - 1) (idx + 1 + k) = some q → q ≠ idx) := by
          rcases Nat.lt_or_ge rk.level (lvl ls idx + 2) with hlow | hhigh
          · have hno : ¬ (lvl (remLoop (enumLevelsFrom (idx + 1) (runOf ls idx)) ls) idx <
                rk.level - 1) := by
              rw [hpreidx]
              omega
            constructor
            · rw [hremeq]
              exact findParent_eraseIdx_low _ idx (rk.level - 1) hplen hno k
            · intro q hq hqe
              have hqp := findParent_some_pred _ _ _ q hq
              rw [hqe, hpreidx] at hqp
              omega
          · have hadj0 : lvl ls (idx + 1) ≤ lvl ls idx + 1 :=
              levelInv_adjacent (levels ls) hinv idx (lvl ls idx) (lvl ls (idx + 1))
                (levels_getElem_of_lt ls idx hidx)
                (levels_getElem_of_lt ls (idx + 1) (by omega))
            have hk1 : 1 ≤ k := by
              by_contra h0
              push_neg at h0
              have hke : idx + 1 + k = idx + 1 := by omega
              rw [hke] at hlk
              omega
            have hrk0 : (runOf ls idx)[0]? = ls[idx + 1]? := by
              rw [runOf_eq, getElem?_takeWhile_of_lt _ _ 0 (by rw [← runOf_eq]; omega),
                getElem?_drop_add]
            cases hg0 : ls[idx + 1]? with
            | none =>
              rw [List.getElem?_eq_none_iff] at hg0
              omega
            | some r0 =>
              have hp0 : lvl ls idx < r0.level := by
                have h := takeWhile_pred_of_getElem
                  (fun r => decide (lvl ls idx < r.level)) (ls.drop (idx + 1)) 0 r0
                  (by rw [← runOf_eq, hrk0]; exact hg0)
                simpa using h
              have hl0 : lvl ls (idx + 1) = r0.level := by simp [lvl, hg0]
              have hpre1 : lvl (remLoop (enumLevelsFrom (idx + 1) (runOf ls idx)) ls)
                  (idx + 1) = lvl ls (idx + 1) - 1 := by
                rw [hprechar (idx + 1), if_neg (by omega), if_pos (by omega)]
              have hstop : lvl (remLoop (enumLevelsFrom (idx + 1) (runOf ls idx)) ls)
                  (idx + 1) < rk.level - 1 := by
                rw [hpre1]
                omega
              have hsh := findParent_eraseIdx_high _ idx (rk.level - 1) hplen hstop (k - 1)
              have he1 : idx + 1 + (k - 1) = idx + k := by omega
              rw [he1] at hsh
              have he2 : idx + k + 1 = idx + 1 + k := by omega
              rw [he2] at hsh
              constructor
              · rw [hremeq]
                exact hsh
              · intro q hq
                have hge := findParent_mono _ (rk.level - 1) (idx + 1) (idx + 1 + k) q
                  (by omega) hstop hq
                omega
        constructor
        · intro q2 hq2
          rw [hlvlres, hmain.1] at hq2
          cases hfq : findParent (remLoop (enumLevelsFrom (idx + 1) (runOf ls idx)) ls)
              (rk.level - 1) (idx + 1 + k) with
          | none =>
            rw [hfq] at hq2
            simp at hq2
          | some q =>
            rw [hfq] at hq2
            have hq2e : (if idx < q then q - 1 else q) = q2 := by simpa using hq2
            have hql : q < idx + 1 + k := findParent_lt_start _ _ _ q hfq
            have hqne : q ≠ idx := hmain.2 q hfq
            have hoptq : optC (removeItem ls idx) q2 =
                optC (remLoop (enumLevelsFrom (idx + 1) (runOf ls idx)) ls) q := by
              rw [← hq2e]
              by_cases hq3 : idx < q
              · rw [if_pos hq3]
                unfold optC
                rw [hremeq, getElem?_eraseIdx_split _ idx (q - 1) hplen, if_neg (by omega)]
                have he : q - 1 + 1 = q := by omega
                rw [he]
              · rw [if_neg hq3]
                unfold optC
                rw [hremeq, getElem?_eraseIdx_split _ idx q hplen, if_pos (by omega)]
            have hoptq2 : optC (remLoop (enumLevelsFrom (idx + 1) (runOf ls idx)) ls) q =
                optC (remLoop (enumLevelsFrom (idx + 1) ((runOf ls idx).take k)) ls) q := by
              unfold optC
              rw [hstab q hql]
            constructor
            · intro hoc
              have hocSk : optC (remLoop (enumLevelsFrom (idx + 1)
                  ((runOf ls idx).take k)) ls) q = true := by
                rw [← hoptq2, ← hoptq]
                exact hoc
              constructor
              · unfold optC
                rw [hresatk, hpreatk, hstep, hs, hfpcongr, hfq]
                simp [hocSk]
              · unfold optE
                rw [hresatk, hpreatk, hstep, hs, hfpcongr, hfq]
                simp [hocSk]
            · intro hoc
              have hocSk : optC (remLoop (enumLevelsFrom (idx + 1)
                  ((runOf ls idx).take k)) ls) q = false := by
                rw [← hoptq2, ← hoptq]
                exact hoc
              unfold optE
              rw [hresatk, hpreatk, hstep, hs, hfpcongr, hfq]
              simp [hocSk]
        · intro hq2
          rw [hlvlres, hmain.1] at hq2
          cases hfq : findParent (remLoop (enumLevelsFrom (idx + 1) (runOf ls idx)) ls)
              (rk.level - 1) (idx + 1 + k) with
          | some q =>
            rw [hfq] at hq2
            simp at hq2
          | none =>
            unfold optE
            rw [hresatk, hpreatk, hstep, hs, hfpcongr, hfq]
            simp

/-- Witness for `claim_C7` at the two-row stage `exC2` (removing the
root `A`, whose run is the optional row `B`). -/
theorem claim_C7_witness :
    (levelInv (levels exC2) = true ∧ 0 < exC2.length) ∧
    ((exC2.length = 1 → removeItem exC2 0 = exC2) ∧
      (exC2.length ≠ 1 →
        (removeItem exC2 0).length = exC2.length - 1 ∧
        levels (removeItem exC2 0) =
          (levels exC2).take 0 ++
            ((((levels exC2).drop (0 + 1)).takeWhile (fun x => decide (lvl exC2 0 < x))).map
                (fun x => x - 1) ++
              ((levels exC2).drop (0 + 1)).dropWhile (fun x => decide (lvl exC2 0 < x))) ∧
        texts (removeItem exC2 0) = (texts exC2).eraseIdx 0 ∧
        optDatas (removeItem exC2 0) = (optDatas exC2).eraseIdx 0 ∧
        (∀ k, k < (runOf exC2 0).length →
          (∀ q, findParent (removeItem exC2 0)
              (lvl (removeItem exC2 0) (0 + k)) (0 + k) = some q →
            (optC (removeItem exC2 0) q = true →
              optC (removeItem exC2 0) (0 + k) = true ∧
                optE (removeItem exC2 0) (0 + k) = false) ∧
            (optC (removeItem exC2 0) q = false →
              optE (removeItem exC2 0) (0 + k) = true)) ∧
          (findParent (removeItem exC2 0)
              (lvl (removeItem exC2 0) (0 + k)) (0 + k) = none →
            optE (removeItem exC2 0) (0 + k) = true)))) :=
  ⟨⟨by decide, by decide⟩, claim_C7 exC2 0 (by decide) (by decide)⟩

/-- **C9.** A click on the next-stage button (possible only while
`_update_next_btn` has enabled it) advances the stage index by exactly
one, and only when the completion sweep reported the stage complete; on
the last stage (and beyond) the index never changes — no wraparound. -/
theorem claim_C9 (f : QForest) (i count : Nat) :
    (nextStageClick f i count ≠ i →
      (updateNextBtn f).2 = true ∧ nextStageClick f i count = i + 1) ∧
    (count ≤ i + 1 → nextStageClick f i count = i) := by
  constructor
  · intro h
    by_cases hb : (updateNextBtn f).2
    · by_cases hcnt : i + 1 < count
      · exact ⟨hb, by simp [nextStageClick, hb, hcnt]⟩
      · exact absurd (by simp [nextStageClick, hb, hcnt]) h
    · exact absurd (by simp [nextStageClick, hb]) h
  · intro h
    have hcnt : ¬ (i + 1 < count) := by omega
    by_cases hb : (updateNextBtn f).2 <;> simp [nextStageClick, hb, hcnt]

/-- Witness for `claim_C9`: on the complete tree `exC3` a click moves
stage 0 of 2 to stage 1; on the incomplete tree at the last stage the
index stays put. -/
theorem claim_C9_witness :
    ((updateNextBtn exC3).2 = true ∧ nextStageClick exC3 0 2 = 1) ∧
    nextStageClick exIncomplete 1 2 = 1 :=
  ⟨(claim_C9 exC3 0 2).1 (by decide), (claim_C9 exIncomplete 1 2).2 (by decide)⟩

/-- **C10.** For every existing ATC template selection, `_edit_tpl`
raises `TypeError` (it passes five positional arguments to the
four-parameter `ATCEditor.__init__`), so no editing session ever opens
and the stored templates are never modified. -/
theorem claim_C10 (tpls : List ATCTemplate) (idx : Nat) (ac stage : String)
    (hne : tpls ≠ []) (hidx : idx < tpls.length) :
    (editTpl tpls idx ac stage).1 = .error "TypeError" ∧
    (editTpl tpls idx ac stage).2 = tpls := by
  have hg : tpls[idx]? = some (tpls.get ⟨idx, hidx⟩) := by
    simp [List.getElem?_eq_getElem hidx]
  simp [editTpl, hne, hg, constructATCEditor, atcEditorParams]

/-- Witness for `claim_C10` at a concrete one-template list. -/
theorem claim_C10_witness :
    ([exTpl] ≠ [] ∧ 0 < [exTpl].length) ∧
    (editTpl [exTpl] 0 "A320" "Taxi").1 = .error "TypeError" ∧
    (editTpl [exTpl] 0 "A320" "Taxi").2 = [exTpl] :=
  ⟨⟨by decide, by decide⟩, claim_C10 [exTpl] 0 "A320" "Taxi" (by decide) (by decide)⟩

/-- **C8** is refuted at a concrete input: `_reset_checks` on an
aircraft whose document holds a plain dict item issues a `mgr.write`,
and the document it writes differs from the stored one (every dict item
gains a `checked: False` entry) — the claim says the core never writes
checked state to disk and that reset leaves the persisted document
unchanged. -/
theorem claim_C8_counterexample :
    ¬ ((resetChecks emptyMem "A320" exDoc).writes = [] ∧ resetDoc exDoc = exDoc) := by
  decide

/-- **C8 amended.** The checked-state memory is runtime-only state for
every operation except the explicit reset: stage snapshotting, stage
advancing, item-change handling and complete-all issue no `mgr.write`;
the explicit reset clears exactly the current aircraft's memory slots
(all its stages, other aircraft untouched) but *does* write the
aircraft's document back to disk, with every dict item's `checked` set
to `False` and everything else (stage names, item texts, levels,
optional flags, legacy strings) unchanged. -/
theorem claim_C8_amended (m : Mem) (ac stage : String) (f : QForest)
    (p : List Nat) (v : Bool) (doc : PDoc) :
    (saveCurrentStageState m ac stage f).writes = [] ∧
    (nextStageEffect m).writes = [] ∧
    (onItemChangedEffect m ac stage f p v).writes = [] ∧
    (completeChecksEffect m).writes = [] ∧
    (∀ s, (resetChecks m ac doc).mem ac s = []) ∧
    (∀ a s, a ≠ ac → (resetChecks m ac doc).mem a s = m a s) ∧
    (resetChecks m ac doc).writes = [(ac, resetDoc doc)] ∧
    (resetDoc doc).map (fun st => st.name) = doc.map (fun st => st.name) ∧
    (resetDoc doc).map (fun st => st.items.map itemCore) =
      doc.map (fun st => st.items.map itemCore) := by
  refine ⟨?_, rfl, ?_, rfl, ?_, ?_, rfl, ?_, ?_⟩
  · unfold saveCurrentStageState
    by_cases h : ac = "" ∨ stage = "" <;> simp [h]
  · unfold onItemChangedEffect saveCurrentStageState
    by_cases h : ac = "" ∨ stage = "" <;> simp [h]
  · intro s; simp [resetChecks, clearAircraft]
  · intro a s ha; simp [resetChecks, clearAircraft, ha]
  · simp [resetDoc]
  · simp [resetDoc, List.map_map]
    intro st _ it _
    exact itemCore_resetItem it

/-- Witness for `claim_C8_amended` at concrete memory, aircraft,
stage, tree and document. -/
theorem claim_C8_amended_witness :
    (saveCurrentStageState emptyMem "A320" "Startup" exC3).writes = [] ∧
    (resetChecks emptyMem "A320" exDoc).mem "A320" "Startup" = [] ∧
    (resetChecks emptyMem "A320" exDoc).mem "B737" "Startup" = emptyMem "B737" "Startup" ∧
    (resetChecks emptyMem "A320" exDoc).writes = [("A320", resetDoc exDoc)] := by
  have h := claim_C8_amended emptyMem "A320" "Startup" exC3 [0] true exDoc
  exact ⟨h.1, h.2.2.2.2.1 "Startup", h.2.2.2.2.2.1 "B737" "Startup" (by decide),
    h.2.2.2.2.2.2.1⟩

end FlightChecklist
